import Mathlib

/-!
Shallow embedding of `src/main.rs` from the mexirun repository: a small
stack-and-tape virtual machine (with `type Data = i32`), its assembly-text
parser, and the obfuscation pipeline `generate_fuxxor`.

Modelling conventions:
* Rust `i32` values are modelled as `Int`; the wrapping arithmetic of release
  builds is made explicit with `wrap32`, and the Rust panics of `i32`
  division/remainder (zero divisor, `i32::MIN / -1`) are the `.fatal` outcome.
* A Rust `Vec<Data>` used as the operand stack is modelled as a `List Int`
  whose head is the top of the stack (the end of the `Vec`).
* `HashMap<String, usize>` is modelled as an association list where insertion
  conses in front and lookup returns the most recent binding, which is
  extensionally the insert-overwrites semantics of `HashMap`.
* Process aborts (panics, failed `assert!`, `unwrap` on `None`, out-of-bounds
  indexing, end of stdin) are modelled as `.fatal` or `Option.none`;
  the recoverable `ExecutionError` results are kept separate, as in the source.
* Rust strings are modelled as `List Char`; the caller-side split of the
  source text into lines (`prog_string.lines()`) makes a program text a
  `List (List Char)`.
* The process-wide random source is modelled by passing the drawn values
  (insertion positions and generated constants) explicitly into the
  obfuscation pipeline.
-/

/-- Values manipulated by the machine: `type Data = i32`. -/
abbrev Data := Int

/-- Argument of a `push` instruction (`enum PushArgument`). -/
inductive PushArgument where
  | const (c : Data)
  | label (l : List Char)
deriving DecidableEq

/-- The instruction set (`enum Command`). -/
inductive Command where
  | left
  | right
  | pushT
  | push (arg : PushArgument)
  | pop
  | dup
  | del
  | eq
  | not
  | gt
  | lt
  | add
  | sub
  | mult
  | div
  | mod
  | read
  | print
  | jmp
  | jmpC
  | label (l : List Char)
  | null
deriving DecidableEq

/-- Lookup in the association-list model of `HashMap<String, usize>`:
the most recent binding (nearest the head) wins, mirroring that a
`HashMap` insert overwrites the previous binding of the same key. -/
def labels_get : List (List Char × Nat) → List Char → Option Nat
  | [], _ => none
  | (k, v) :: rest, l => if k = l then some v else labels_get rest l

/-- A parsed program (`struct Program`): the instruction sequence and the
label table. -/
structure Program where
  lines : List Command
  labels : List (List Char × Nat)
deriving DecidableEq

/-- The machine state (`struct MachineState`). -/
structure MachineState where
  program_counter : Nat
  tape_head : Nat
  tape : List Data
  stack : List Data
  terminated : Bool
deriving DecidableEq

/-- A machine state together with the external world: the pending stdin
bytes and the bytes written to stdout so far. -/
structure Config where
  machine : MachineState
  input : List Nat
  output : List Nat
deriving DecidableEq

/-- The recoverable error results of `execute_command`
(`enum ExecutionError`). -/
inductive ExecutionError where
  | terminated
  | invalidLine (n : Nat)
  | invalidLabel (l : List Char)
  | stackUnderflow
  | tapeHeadUnderflow
deriving DecidableEq

/-- Result of one step: success, a recoverable `ExecutionError`, or a
process abort (Rust panic: division by zero or overflow, out-of-bounds
tape indexing in `pusht`, end of stdin in `read`). -/
inductive StepResult where
  | ok (c : Config)
  | err (e : ExecutionError)
  | fatal
deriving DecidableEq

/-- The wrapping of release-build `i32` arithmetic. -/
def wrap32 (x : Int) : Int := (x + 2 ^ 31) % 2 ^ 32 - 2 ^ 31

/-- The `i32` minimum value. -/
def intMin : Int := -(2 ^ 31)

/-- Rust `v as usize` on an `i32`: sign-extend to 64 bits and reinterpret. -/
def usizeOf (v : Data) : Nat := (v % 2 ^ 64).toNat

/-- Rust `n as i32` on a `usize`: keep the low 32 bits, reinterpreted as
signed. -/
def i32OfUsize (n : Nat) : Data := ((n : Int) + 2 ^ 31) % 2 ^ 32 - 2 ^ 31

/-- Rust `v as u8` on an `i32`: the low 8 bits. -/
def byteOf (v : Data) : Nat := (v % 256).toNat

/-- Tape store of `Command::Pop`: grow the tape with zeroes
(`resize_with(head + 1, Data::default)`) if the head is past the end, then
write `v` at the head. -/
def tapeWrite (tape : List Data) (head : Nat) (v : Data) : List Data :=
  let t := if tape.length ≤ head then
    tape ++ List.replicate (head + 1 - tape.length) 0 else tape
  t.set head v

/-- Shared tail of every successful instruction: after the instruction's
effect, set `terminated` when the program counter is at or past the end of
the instruction sequence. -/
def finish_step (program : Program) (cfg : Config) : StepResult :=
  if program.lines.length ≤ cfg.machine.program_counter then
    .ok { cfg with machine := { cfg.machine with terminated := true } }
  else .ok cfg

/-- The per-opcode effects of `execute_command`, applied after the command
has been fetched and with the default advance `program_counter += 1`
already reflected in `m`.  Binary operators pop their left operand first
(Rust evaluates `stack.pop() OP stack.pop()` left to right). -/
def execute_fetched (program : Program) (cfg : Config) (command : Command) :
    StepResult :=
  let m := { cfg.machine with
    program_counter := cfg.machine.program_counter + 1 }
  match command with
  | .left =>
    match m.tape_head with
    | 0 => .err .tapeHeadUnderflow
    | k + 1 => finish_step program { cfg with machine := { m with tape_head := k } }
  | .right =>
    finish_step program { cfg with machine := { m with tape_head := m.tape_head + 1 } }
  | .pushT =>
    match m.tape[m.tape_head]? with
    | none => .fatal
    | some v =>
      finish_step program { cfg with machine := { m with stack := v :: m.stack } }
  | .push (.const c) =>
    finish_step program { cfg with machine := { m with stack := c :: m.stack } }
  | .push (.label l) =>
    match labels_get program.labels l with
    | none => .err (.invalidLabel l)
    | some i =>
      finish_step program
        { cfg with machine := { m with stack := i32OfUsize i :: m.stack } }
  | .pop =>
    match m.stack with
    | [] => .err .stackUnderflow
    | v :: rest =>
      finish_step program
        { cfg with machine :=
          { m with tape := tapeWrite m.tape m.tape_head v, stack := rest } }
  | .dup =>
    match m.stack with
    | [] => .err .stackUnderflow
    | v :: rest =>
      finish_step program { cfg with machine := { m with stack := v :: v :: rest } }
  | .del =>
    match m.stack with
    | [] => .err .stackUnderflow
    | _ :: rest =>
      finish_step program { cfg with machine := { m with stack := rest } }
  | .eq =>
    match m.stack with
    | a :: b :: rest =>
      finish_step program
        { cfg with machine :=
          { m with stack := (if a = b then (1 : Data) else 0) :: rest } }
    | _ => .err .stackUnderflow
  | .not =>
    match m.stack with
    | a :: rest =>
      finish_step program
        { cfg with machine :=
          { m with stack := (if a = 0 then (1 : Data) else 0) :: rest } }
    | _ => .err .stackUnderflow
  | .gt =>
    match m.stack with
    | a :: b :: rest =>
      finish_step program
        { cfg with machine :=
          { m with stack := (if a > b then (1 : Data) else 0) :: rest } }
    | _ => .err .stackUnderflow
  | .lt =>
    match m.stack with
    | a :: b :: rest =>
      finish_step program
        { cfg with machine :=
          { m with stack := (if a < b then (1 : Data) else 0) :: rest } }
    | _ => .err .stackUnderflow
  | .add =>
    match m.stack with
    | a :: b :: rest =>
      finish_step program
        { cfg with machine := { m with stack := wrap32 (a + b) :: rest } }
    | _ => .err .stackUnderflow
  | .sub =>
    match m.stack with
    | a :: b :: rest =>
      finish_step program
        { cfg with machine := { m with stack := wrap32 (a - b) :: rest } }
    | _ => .err .stackUnderflow
  | .mult =>
    match m.stack with
    | a :: b :: rest =>
      finish_step program
        { cfg with machine := { m with stack := wrap32 (a * b) :: rest } }
    | _ => .err .stackUnderflow
  | .div =>
    match m.stack with
    | a :: b :: rest =>
      if b = 0 ∨ (a = intMin ∧ b = -1) then .fatal
      else
        finish_step program
          { cfg with machine := { m with stack := Int.tdiv a b :: rest } }
    | _ => .err .stackUnderflow
  | .mod =>
    match m.stack with
    | a :: b :: rest =>
      if b = 0 ∨ (a = intMin ∧ b = -1) then .fatal
      else
        finish_step program
          { cfg with machine := { m with stack := Int.tmod a b :: rest } }
    | _ => .err .stackUnderflow
  | .read =>
    match cfg.input with
    | [] => .fatal
    | b :: rest =>
      finish_step program
        { cfg with
            machine := { m with stack := (b : Int) :: m.stack },
            input := rest }
  | .print =>
    match m.stack with
    | [] => .err .stackUnderflow
    | v :: rest =>
      finish_step program
        { cfg with
            machine := { m with stack := rest },
            output := cfg.output ++ [byteOf v] }
  | .jmp =>
    match m.stack with
    | [] => .err .stackUnderflow
    | v :: rest =>
      finish_step program
        { cfg with machine := { m with program_counter := usizeOf v, stack := rest } }
  | .jmpC =>
    match m.stack with
    | a :: c :: rest =>
      if c ≠ 0 then
        finish_step program
          { cfg with machine :=
            { m with program_counter := usizeOf a, stack := rest } }
      else
        finish_step program { cfg with machine := { m with stack := rest } }
    | _ => .err .stackUnderflow
  | .label _ => finish_step program { cfg with machine := m }
  | .null => finish_step program { cfg with machine := m }

/-- Fetch the instruction at the program counter
(`.get(..).ok_or(InvalidLine(..))?`) and execute it. -/
def fetch_execute (program : Program) (cfg : Config) : StepResult :=
  match program.lines[cfg.machine.program_counter]? with
  | none => .err (.invalidLine cfg.machine.program_counter)
  | some command => execute_fetched program cfg command

/-- One step of the execution engine (`fn execute_command`): resume or
reject a terminated machine, then fetch and execute one instruction. -/
def execute_command (program : Program) (cfg : Config) : StepResult :=
  if cfg.machine.terminated then
    if cfg.machine.program_counter < program.lines.length then
      fetch_execute program
        { cfg with machine := { cfg.machine with terminated := false } }
    else .err .terminated
  else fetch_execute program cfg

/-- Iterate `execute_command` a fixed number of times, stopping at the
first non-`ok` result. -/
def stepN (program : Program) : Nat → StepResult → StepResult
  | 0, r => r
  | n + 1, .ok c => stepN program n (execute_command program c)
  | _ + 1, r => r

/-- The fresh machine of `MachineState::default()`. -/
def initMachine : MachineState :=
  { program_counter := 0, tape_head := 0, tape := [], stack := [],
    terminated := false }

/-- Initial configuration: fresh machine, given stdin bytes, empty output. -/
def initConfig (input : List Nat) : Config :=
  { machine := initMachine, input := input, output := [] }

/-- Outcome of the driver loop in `main` (`while !machine.terminated`),
run with bounded fuel. A `failed` or `fatal` outcome aborts the process;
`failed` and `fatal` keep the configuration at the fault for observation. -/
inductive RunResult where
  | done (c : Config)
  | failed (e : ExecutionError) (c : Config)
  | fatal (c : Config)
  | outOfFuel (c : Config)
deriving DecidableEq

/-- The driver loop of `main`: step until `terminated`; any error aborts. -/
def run : Nat → Program → Config → RunResult
  | 0, _, c => .outOfFuel c
  | n + 1, p, c =>
    if c.machine.terminated then .done c
    else
      match execute_command p c with
      | .ok c' => run n p c'
      | .err e => .failed e c
      | .fatal => .fatal c

/-! Helper facts about single steps. -/

/-- A program with the given instruction list and an empty label table. -/
def progOf (cs : List Command) : Program := { lines := cs, labels := [] }

/-- The resumption branch of `execute_command` is the only place that can
produce the `Terminated` error: fetching and executing never does. -/
theorem fetch_execute_ne_terminated (p : Program) (c : Config) :
    fetch_execute p c ≠ .err .terminated := by
  unfold fetch_execute
  cases h : p.lines[c.machine.program_counter]? with
  | none => simp
  | some cmd =>
    cases cmd <;>
      simp only [execute_fetched, finish_step] <;>
      (repeat' split) <;> simp_all

/-! Claims C2 and C3: operand order of the binary operators. -/

/-- C2 counterexample: the claim predicts that `push 7; push 2; div`
leaves `3` on the stack (second-popped divided by first-popped).  The
engine evaluates `stack.pop() / stack.pop()` left to right, so it computes
`2 / 7 = 0`: the final stack is `[0]`, not `[3]`. -/
theorem C2_counterexample :
    stepN (progOf [.push (.const 7), .push (.const 2), .div]) 3
      (.ok (initConfig [])) =
    .ok { machine := { program_counter := 3, tape_head := 0, tape := [],
                       stack := [0], terminated := true },
          input := [], output := [] } ∧ (0 : Data) ≠ 3 := by
  decide

/-- C2 amended: `Sub`, `Div`, `Mod` treat the first-popped value as the
LEFT-hand operand: they push `first - second`, `first / second`,
`first % second` with native truncating-toward-zero division and
remainder; `push 7; push 2; div` leaves `0` (= 2 / 7) on the stack, and a
division or remainder whose second-popped operand is zero is a fatal
fault (process abort), not a recoverable `ExecutionError`. -/
theorem C2_amended (p : Program) (cfg : Config) (a b : Data) (rest : List Data)
    (hterm : cfg.machine.terminated = false)
    (hstack : cfg.machine.stack = a :: b :: rest) :
    (p.lines[cfg.machine.program_counter]? = some .sub →
      execute_command p cfg = finish_step p
        { cfg with machine := { cfg.machine with
            program_counter := cfg.machine.program_counter + 1,
            stack := wrap32 (a - b) :: rest } }) ∧
    (p.lines[cfg.machine.program_counter]? = some .div → b = 0 →
      execute_command p cfg = .fatal) ∧
    (p.lines[cfg.machine.program_counter]? = some .div → b ≠ 0 →
      ¬(a = intMin ∧ b = -1) →
      execute_command p cfg = finish_step p
        { cfg with machine := { cfg.machine with
            program_counter := cfg.machine.program_counter + 1,
            stack := Int.tdiv a b :: rest } }) ∧
    (p.lines[cfg.machine.program_counter]? = some .mod → b = 0 →
      execute_command p cfg = .fatal) ∧
    (p.lines[cfg.machine.program_counter]? = some .mod → b ≠ 0 →
      ¬(a = intMin ∧ b = -1) →
      execute_command p cfg = finish_step p
        { cfg with machine := { cfg.machine with
            program_counter := cfg.machine.program_counter + 1,
            stack := Int.tmod a b :: rest } }) := by
  refine ⟨fun h => ?_, fun h hb => ?_, fun h hb hmin => ?_,
    fun h hb => ?_, fun h hb hmin => ?_⟩ <;>
    simp [execute_command, fetch_execute, execute_fetched, hterm, hstack, *]

/-- C2 witness: dividing with stack `[2, 7]` (so `2` is popped first)
executes `2 / 7` and pushes `0`. -/
theorem C2_amended_witness :
    execute_command (progOf [.div])
      { machine := { program_counter := 0, tape_head := 0, tape := [],
                     stack := [2, 7], terminated := false },
        input := [], output := [] } =
    .ok { machine := { program_counter := 1, tape_head := 0, tape := [],
                       stack := [0], terminated := true },
          input := [], output := [] } := by
  have h := (C2_amended (progOf [.div])
    { machine := { program_counter := 0, tape_head := 0, tape := [],
                   stack := [2, 7], terminated := false },
      input := [], output := [] } 2 7 [] rfl rfl).2.2.1 rfl
    (by decide) (by decide)
  simpa [finish_step, progOf] using h

/-- C3 counterexample: the claim predicts that `GreaterThan` pushes `1`
exactly when the second-popped value exceeds the first-popped one, so
`push 7; push 2; gt` (second popped = 7 > 2 = first popped) should leave
`[1]`.  The engine compares `first > second`, i.e. `2 > 7`, and leaves
`[0]`. -/
theorem C3_counterexample :
    stepN (progOf [.push (.const 7), .push (.const 2), .gt]) 3
      (.ok (initConfig [])) =
    .ok { machine := { program_counter := 3, tape_head := 0, tape := [],
                       stack := [0], terminated := true },
          input := [], output := [] } ∧ ((7 : Data) > 2 ∧ (0 : Data) ≠ 1) := by
  decide

/-- C3 amended: `Equal`, `GreaterThan` and `LessThan` pop two values with
the first-popped as the LEFT-hand operand and push `1` if the comparison
holds else `0`: `GreaterThan` pushes `1` exactly when
`first_popped > second_popped`, and `LessThan` pushes `1` exactly when
`first_popped < second_popped`. -/
theorem C3_amended (p : Program) (cfg : Config) (a b : Data) (rest : List Data)
    (hterm : cfg.machine.terminated = false)
    (hstack : cfg.machine.stack = a :: b :: rest) :
    (p.lines[cfg.machine.program_counter]? = some .eq →
      execute_command p cfg = finish_step p
        { cfg with machine := { cfg.machine with
            program_counter := cfg.machine.program_counter + 1,
            stack := (if a = b then (1 : Data) else 0) :: rest } }) ∧
    (p.lines[cfg.machine.program_counter]? = some .gt →
      execute_command p cfg = finish_step p
        { cfg with machine := { cfg.machine with
            program_counter := cfg.machine.program_counter + 1,
            stack := (if a > b then (1 : Data) else 0) :: rest } }) ∧
    (p.lines[cfg.machine.program_counter]? = some .lt →
      execute_command p cfg = finish_step p
        { cfg with machine := { cfg.machine with
            program_counter := cfg.machine.program_counter + 1,
            stack := (if a < b then (1 : Data) else 0) :: rest } }) := by
  refine ⟨fun h => ?_, fun h => ?_, fun h => ?_⟩ <;>
    simp [execute_command, fetch_execute, execute_fetched, hterm, hstack, h]

/-- C3 witness: comparing with stack `[2, 7]`: `gt` computes `2 > 7` and
pushes `0`. -/
theorem C3_amended_witness :
    execute_command (progOf [.gt])
      { machine := { program_counter := 0, tape_head := 0, tape := [],
                     stack := [2, 7], terminated := false },
        input := [], output := [] } =
    .ok { machine := { program_counter := 1, tape_head := 0, tape := [],
                       stack := [0], terminated := true },
          input := [], output := [] } := by
  have h := (C3_amended (progOf [.gt])
    { machine := { program_counter := 0, tape_head := 0, tape := [],
                   stack := [2, 7], terminated := false },
      input := [], output := [] } 2 7 [] rfl rfl).2.1 rfl
  simpa [finish_step, progOf] using h

/-! Claim C4: the `jmpc` example program. -/

/-- C4 counterexample: in `push 2; push 1; jmpc` the target address popped
first is `1` (the value pushed last) and the condition popped second is
`2`; since the condition is nonzero, the machine jumps to absolute address
`1`, not to `2` as the claim states. -/
theorem C4_counterexample :
    stepN (progOf [.push (.const 2), .push (.const 1), .jmpC]) 3
      (.ok (initConfig [])) =
    .ok { machine := { program_counter := 1, tape_head := 0, tape := [],
                       stack := [], terminated := false },
          input := [], output := [] } ∧ (1 : Nat) ≠ 2 := by
  decide

/-- C4 amended: `JumpIfNonzero` pops the target address first and the
condition second, so the program `push 1; push 2; jmpc` (condition pushed
first, target last) jumps to absolute address 2 because the popped
condition `1` is nonzero, while `push 0; push 2; jmpc` pops condition `0`
and falls through to the next instruction; in general, with stack
`a :: c :: rest` the popped target is `a` and the popped condition `c`. -/
theorem C4_amended (p : Program) (cfg : Config) (a c : Data) (rest : List Data)
    (hterm : cfg.machine.terminated = false)
    (hstack : cfg.machine.stack = a :: c :: rest)
    (hfetch : p.lines[cfg.machine.program_counter]? = some .jmpC) :
    (c ≠ 0 → execute_command p cfg = finish_step p
      { cfg with machine := { cfg.machine with
          program_counter := usizeOf a, stack := rest } }) ∧
    (c = 0 → execute_command p cfg = finish_step p
      { cfg with machine := { cfg.machine with
          program_counter := cfg.machine.program_counter + 1,
          stack := rest } }) ∧
    stepN (progOf [.push (.const 1), .push (.const 2), .jmpC]) 3
      (.ok (initConfig [])) =
    .ok { machine := { program_counter := 2, tape_head := 0, tape := [],
                       stack := [], terminated := false },
          input := [], output := [] } ∧
    stepN (progOf [.push (.const 0), .push (.const 2), .jmpC]) 3
      (.ok (initConfig [])) =
    .ok { machine := { program_counter := 3, tape_head := 0, tape := [],
                       stack := [], terminated := true },
          input := [], output := [] } := by
  refine ⟨fun hc => ?_, fun hc => ?_, by decide, by decide⟩ <;>
    simp [execute_command, fetch_execute, execute_fetched, hterm, hstack,
      hfetch, *]

/-- C4 witness: a `jmpc` with stack `[9, 5]` jumps to address 9 since the
condition 5 is nonzero. -/
theorem C4_amended_witness :
    execute_command (progOf [.jmpC])
      { machine := { program_counter := 0, tape_head := 0, tape := [],
                     stack := [9, 5], terminated := false },
        input := [], output := [] } =
    .ok { machine := { program_counter := 9, tape_head := 0, tape := [],
                       stack := [], terminated := true },
          input := [], output := [] } := by
  have h := (C4_amended (progOf [.jmpC])
    { machine := { program_counter := 0, tape_head := 0, tape := [],
                   stack := [9, 5], terminated := false },
      input := [], output := [] } 9 5 [] rfl rfl rfl).1 (by decide)
  simpa [finish_step, progOf, usizeOf] using h

/-! Claim C5: when does `InvalidLine` arise? -/

/-- C5 counterexample: after `push 5; jmp` the jump step to out-of-range
address 5 succeeds and sets the terminated flag, so the driver loop ends
the run normally; a further step on that state fails with `Terminated`,
not with `InvalidLine`. -/
theorem C5_counterexample :
    run 10 (progOf [.push (.const 5), .jmp]) (initConfig []) =
    .done { machine := { program_counter := 5, tape_head := 0, tape := [],
                         stack := [], terminated := true },
            input := [], output := [] } ∧
    execute_command (progOf [.push (.const 5), .jmp])
      { machine := { program_counter := 5, tape_head := 0, tape := [],
                     stack := [], terminated := true },
        input := [], output := [] } = .err .terminated ∧
    ExecutionError.terminated ≠ .invalidLine 5 := by
  decide

/-- C5 amended: `InvalidLine` arises when the program counter references a
nonexistent instruction while the machine is not flagged terminated (for
example, the first step of an empty program fails with `InvalidLine 0`).
A `Jump` whose target is at or past the end of the sequence instead
succeeds and sets the terminated flag during that same step, and a
subsequent step on the resulting state fails with `Terminated`, not
`InvalidLine`. -/
theorem C5_amended (p : Program) (cfg : Config) :
    (cfg.machine.terminated = false →
      p.lines.length ≤ cfg.machine.program_counter →
      execute_command p cfg = .err (.invalidLine cfg.machine.program_counter)) ∧
    (∀ (v : Data) (rest : List Data), cfg.machine.terminated = false →
      cfg.machine.stack = v :: rest →
      p.lines[cfg.machine.program_counter]? = some .jmp →
      p.lines.length ≤ usizeOf v →
      execute_command p cfg =
        .ok { cfg with machine := { cfg.machine with
            program_counter := usizeOf v, stack := rest,
            terminated := true } }) ∧
    (cfg.machine.terminated = true →
      p.lines.length ≤ cfg.machine.program_counter →
      execute_command p cfg = .err .terminated) ∧
    execute_command (progOf []) (initConfig []) = .err (.invalidLine 0) := by
  refine ⟨fun hterm hpc => ?_, fun v rest hterm hstack hfetch hv => ?_,
    fun hterm hpc => ?_, by decide⟩
  · have : p.lines[cfg.machine.program_counter]? = none :=
      List.getElem?_eq_none hpc
    simp [execute_command, fetch_execute, hterm, this]
  · simp [execute_command, fetch_execute, execute_fetched, finish_step,
      hterm, hstack, hfetch, hv]
  · have : ¬ cfg.machine.program_counter < p.lines.length := by omega
    simp [execute_command, hterm, this]

/-- C5 witness: on the two-instruction program `push 5; jmp`, the state
after the jump (program counter 5, terminated) steps to `Terminated`, and
an untermintated state at program counter 2 steps to `InvalidLine 2`. -/
theorem C5_amended_witness :
    execute_command (progOf [.push (.const 5), .jmp])
      { machine := { program_counter := 2, tape_head := 0, tape := [],
                     stack := [], terminated := false },
        input := [], output := [] } = .err (.invalidLine 2) := by
  have h := (C5_amended (progOf [.push (.const 5), .jmp])
    { machine := { program_counter := 2, tape_head := 0, tape := [],
                   stack := [], terminated := false },
      input := [], output := [] }).1 rfl (by decide)
  simpa using h

/-! Claim C6: stepping a terminated machine. -/

/-- C6 counterexample: the claim says a step on a terminated state
succeeds if and only if the program counter is in bounds.  With the
program `pop`, a terminated state at program counter 0 (in bounds) and an
empty stack, the step does not succeed: it fails with `StackUnderflow`. -/
theorem C6_counterexample :
    execute_command (progOf [.pop])
      { machine := { program_counter := 0, tape_head := 0, tape := [],
                     stack := [], terminated := true },
        input := [], output := [] } = .err .stackUnderflow ∧
    (0 : Nat) < 1 ∧
    ∀ c : Config, StepResult.err .stackUnderflow ≠ .ok c := by
  refine ⟨by decide, by decide, fun c => by simp⟩

/-- C6 amended: for a state with the terminated flag set, the step fails
with the `Terminated` error exactly when the program counter is at or past
the end of the instruction sequence; when it is within bounds the flag is
cleared and the step behaves exactly like a step on the unterminated
state (it may still fail with the fetched instruction's own error, but
never with `Terminated`). -/
theorem C6_amended (p : Program) (cfg : Config)
    (hterm : cfg.machine.terminated = true) :
    (execute_command p cfg = .err .terminated ↔
      p.lines.length ≤ cfg.machine.program_counter) ∧
    (cfg.machine.program_counter < p.lines.length →
      execute_command p cfg =
        execute_command p
          { cfg with machine := { cfg.machine with terminated := false } }) := by
  constructor
  · constructor
    · intro h
      by_contra hpc
      push_neg at hpc
      rw [execute_command] at h
      simp [hterm, hpc] at h
      exact fetch_execute_ne_terminated _ _ h
    · intro hpc
      have : ¬ cfg.machine.program_counter < p.lines.length := by omega
      simp [execute_command, hterm, this]
  · intro hpc
    simp [execute_command, hterm, hpc]

/-- C6 witness: with program `pop`, stack `[4]` and a terminated state at
program counter 0, the step is not the `Terminated` error (0 is in
bounds), and it equals the step on the same state with the flag cleared. -/
theorem C6_amended_witness :
    ((execute_command (progOf [.pop])
      { machine := { program_counter := 0, tape_head := 0, tape := [],
                     stack := [4], terminated := true },
        input := [], output := [] } = .err .terminated ↔
      (1 : Nat) ≤ 0) ∧
    ((0 : Nat) < 1 →
      execute_command (progOf [.pop])
        { machine := { program_counter := 0, tape_head := 0, tape := [],
                       stack := [4], terminated := true },
          input := [], output := [] } =
      execute_command (progOf [.pop])
        { machine := { program_counter := 0, tape_head := 0, tape := [],
                       stack := [4], terminated := false },
          input := [], output := [] })) :=
  C6_amended (progOf [.pop])
    { machine := { program_counter := 0, tape_head := 0, tape := [],
                   stack := [4], terminated := true },
      input := [], output := [] } rfl

/-! The obfuscation pipeline of `generate_fuxxor`, with the random draws
passed in explicitly. -/

/-- One iteration of the insertion loop in `insert_dead_code`: the block
`cmds` is inserted element by element at `index, index + 1, ...`, which
splices the whole block in at `index`. -/
def insert_block (lines : List Command) (index : Nat) (cmds : List Command) :
    List Command :=
  lines.take index ++ cmds ++ lines.drop index

/-- `fn insert_dead_code`, with the randomness made explicit: each element
of `insertions` is one loop iteration, carrying the drawn index
(`rng.gen_range(0..program.lines.len())`) and the block produced by
`dead_code_gen()`.  The `quantity` argument of the source is the length of
`insertions`. -/
def insert_dead_code (program : Program)
    (insertions : List (Nat × List Command)) : Program :=
  insertions.foldl
    (fun p ins => { p with lines := insert_block p.lines ins.1 ins.2 }) program

/-- Dead-code family 1: `push a; del` with `a` drawn from `-3..10`. -/
def gen_push_del (a : Data) : List Command :=
  [.push (.const a), .del]

/-- Dead-code family 2: `push a; push b; add; del`, `a, b` from `-3..10`. -/
def gen_add_del (a b : Data) : List Command :=
  [.push (.const a), .push (.const b), .add, .del]

/-- Dead-code family 3: `push a; push b; sub; del`, `a, b` from `-3..10`. -/
def gen_sub_del (a b : Data) : List Command :=
  [.push (.const a), .push (.const b), .sub, .del]

/-- Dead-code family 4: `push a; dup; add; del`, `a` from `-3..10`. -/
def gen_dup_add_del (a : Data) : List Command :=
  [.push (.const a), .dup, .add, .del]

/-- Dead-code family 5: `push a; push b; div; push c; mult; del`, with
`a, b, c` from `3..10` (so the divisor, the value pushed first, is
nonzero). -/
def gen_div_mult_del (a b c : Data) : List Command :=
  [.push (.const a), .push (.const b), .div, .push (.const c), .mult, .del]

/-- Dead-code family 6: `push a; dup; mult; push b; mult; del`, with `a`
from `-3..10` and `b` from `3..10`. -/
def gen_dup_mult_del (a b : Data) : List Command :=
  [.push (.const a), .dup, .mult, .push (.const b), .mult, .del]

/-- The random draws consumed by one run of `generate_fuxxor`:
the positions of the standalone-`Null` padding rounds, one entry per
iteration of each of the six `insert_dead_code` call sites (index plus the
drawn constants), and the positions of the final `Null` dead-code call.
In the source the quantities are fixed (100 rounds of 1–3 nulls, then
200/200/200/200/20/20/100 insertions); here they are the list lengths, so
every instruction-count budget can be expressed. -/
structure ObfChoices where
  nulls1 : List Nat
  ins1 : List (Nat × Data)
  ins2 : List (Nat × Data × Data)
  ins3 : List (Nat × Data × Data)
  ins4 : List (Nat × Data)
  ins5 : List (Nat × Data × Data × Data)
  ins6 : List (Nat × Data × Data)
  nulls2 : List Nat

/-- All insertion events of one `generate_fuxxor` run, in execution order:
the `Null` padding rounds (each inserting the one-element block
`[Command::Null]`), the six dead-code call sites, and the final `Null`
dead-code call. -/
def all_insertions (ch : ObfChoices) : List (Nat × List Command) :=
  ch.nulls1.map (fun i => (i, [Command.null]))
    ++ ch.ins1.map (fun x => (x.1, gen_push_del x.2))
    ++ ch.ins2.map (fun x => (x.1, gen_add_del x.2.1 x.2.2))
    ++ ch.ins3.map (fun x => (x.1, gen_sub_del x.2.1 x.2.2))
    ++ ch.ins4.map (fun x => (x.1, gen_dup_add_del x.2))
    ++ ch.ins5.map (fun x => (x.1, gen_div_mult_del x.2.1 x.2.2.1 x.2.2.2))
    ++ ch.ins6.map (fun x => (x.1, gen_dup_mult_del x.2.1 x.2.2))
    ++ ch.nulls2.map (fun i => (i, [Command.null]))

/-- Step (1) of `generate_fuxxor`:
`program.lines.retain(|command| *command != Command::Null)`. -/
def strip_nulls (program : Program) : Program :=
  { program with lines := program.lines.filter (fun c => c ≠ Command.null) }

/-- Steps (4) of `generate_fuxxor`: rebuild the label table by scanning
the sequence (`for (line, command) in program.lines.iter().enumerate()`);
a later declaration of a name shadows an earlier one. -/
def relabel_go : List Command → Nat → List (List Char × Nat) →
    List (List Char × Nat)
  | [], _, acc => acc
  | Command.label l :: rest, i, acc => relabel_go rest (i + 1) ((l, i) :: acc)
  | _ :: rest, i, acc => relabel_go rest (i + 1) acc

/-- The rebuilt label table of a command sequence. -/
def relabel (lines : List Command) : List (List Char × Nat) :=
  relabel_go lines 0 []

/-- Step (5) of `generate_fuxxor`: replace every `Push(Label(l))` with
`Push(Const(position as i32))`; the `.unwrap()` on a missing label is a
process abort, modelled as `none`. -/
def substitute_labels (labels : List (List Char × Nat)) :
    List Command → Option (List Command)
  | [] => some []
  | Command.push (PushArgument.label l) :: rest =>
    match labels_get labels l with
    | none => none
    | some i =>
      (substitute_labels labels rest).map
        (fun ls => Command.push (PushArgument.const (i32OfUsize i)) :: ls)
  | c :: rest => (substitute_labels labels rest).map (fun ls => c :: ls)

/-- Step (6) of `generate_fuxxor`: replace every label declaration with
`Null`. -/
def erase_label (c : Command) : Command :=
  match c with
  | Command.label _ => Command.null
  | c => c

/-- The program-level part of `fn generate_fuxxor` (everything up to the
whitespace-randomized serialization of step (7)): strip nulls, splice in
the padding and dead-code blocks, rebuild the label table, substitute
label references by constants, and erase label declarations.  `none`
models the process aborting on an unresolvable label. -/
def generate_fuxxor (program : Program) (ch : ObfChoices) : Option Program :=
  let p := insert_dead_code (strip_nulls program) (all_insertions ch)
  let labels := relabel p.lines
  (substitute_labels labels p.lines).map
    (fun ls => { lines := ls.map erase_label, labels := labels })

/-- Validity of the drawn insertion positions: `rng.gen_range(0..len)`
always returns an index strictly below the current length. -/
def wfInsertions : List Command → List (Nat × List Command) → Bool
  | _, [] => true
  | lines, ins :: rest =>
    decide (ins.1 < lines.length) &&
      wfInsertions (insert_block lines ins.1 ins.2) rest

/-- Validity of one whole set of random draws: every insertion position is
in range at the moment it is used, and every drawn constant lies in the
`gen_range` interval of its call site. -/
def wfChoices (program : Program) (ch : ObfChoices) : Bool :=
  wfInsertions (strip_nulls program).lines (all_insertions ch) &&
    ch.ins1.all (fun x => decide (-3 ≤ x.2) && decide (x.2 < 10)) &&
    ch.ins2.all (fun x => decide (-3 ≤ x.2.1) && decide (x.2.1 < 10) &&
      decide (-3 ≤ x.2.2) && decide (x.2.2 < 10)) &&
    ch.ins3.all (fun x => decide (-3 ≤ x.2.1) && decide (x.2.1 < 10) &&
      decide (-3 ≤ x.2.2) && decide (x.2.2 < 10)) &&
    ch.ins4.all (fun x => decide (-3 ≤ x.2) && decide (x.2 < 10)) &&
    ch.ins5.all (fun x => decide (3 ≤ x.2.1) && decide (x.2.1 < 10) &&
      decide (3 ≤ x.2.2.1) && decide (x.2.2.1 < 10) &&
      decide (3 ≤ x.2.2.2) && decide (x.2.2.2 < 10)) &&
    ch.ins6.all (fun x => decide (-3 ≤ x.2.1) && decide (x.2.1 < 10) &&
      decide (3 ≤ x.2.2) && decide (x.2.2 < 10))

/-- Is this command a symbolic label reference? -/
def is_push_label (c : Command) : Bool :=
  match c with
  | Command.push (PushArgument.label _) => true
  | _ => false

/-- Is this command a label declaration? -/
def is_label_decl (c : Command) : Bool :=
  match c with
  | Command.label _ => true
  | _ => false

/-- Is this command a jump? -/
def is_jump (c : Command) : Bool :=
  match c with
  | Command.jmp => true
  | Command.jmpC => true
  | _ => false

/-- Does a command sequence contain a symbolic label reference? -/
def has_push_label (lines : List Command) : Bool :=
  lines.any is_push_label

/-- Does a command sequence contain a label declaration? -/
def has_label_decl (lines : List Command) : Bool :=
  lines.any is_label_decl

/-- Does a command sequence contain a jump instruction? -/
def has_jump (lines : List Command) : Bool :=
  lines.any is_jump

/-- Is every label reference matched by a declaration of the same name? -/
def labels_matched (lines : List Command) : Bool :=
  lines.all (fun c => match c with
    | Command.push (PushArgument.label l) =>
      lines.any (fun d => d = Command.label l)
    | _ => true)


/-! Facts about the pipeline used by claims C1 and C7. -/

theorem is_push_label_eq_false {c : Command} :
    is_push_label c = false ↔ ∀ l, c ≠ Command.push (PushArgument.label l) := by
  cases c <;> try simp [is_push_label]
  case push arg =>
    cases arg with
    | const k => simp [is_push_label]
    | label l =>
      simp only [is_push_label]
      constructor
      · intro h; cases h
      · intro h; exact absurd rfl (h l)

theorem has_push_label_eq_false {lines : List Command} :
    has_push_label lines = false ↔
      ∀ l, Command.push (PushArgument.label l) ∉ lines := by
  simp only [has_push_label, List.any_eq_false]
  constructor
  · intro h l hl
    have := h _ hl
    simp [is_push_label] at this
  · intro h c hc
    rw [Bool.not_eq_true, is_push_label_eq_false]
    intro l hcl
    exact h l (hcl ▸ hc)

theorem has_jump_eq_false {lines : List Command} :
    has_jump lines = false ↔
      ∀ c ∈ lines, c ≠ Command.jmp ∧ c ≠ Command.jmpC := by
  simp only [has_jump, List.any_eq_false]
  constructor
  · intro h c hc
    have := h _ hc
    cases c <;> simp_all [is_jump]
  · intro h c hc
    have := h c hc
    cases c <;> simp_all [is_jump]

theorem mem_insert_block {c : Command} {lines cmds : List Command} {i : Nat} :
    c ∈ insert_block lines i cmds ↔ c ∈ lines ∨ c ∈ cmds := by
  unfold insert_block
  constructor
  · intro h
    rcases List.mem_append.1 h with h | h
    · rcases List.mem_append.1 h with h | h
      · exact Or.inl (List.take_subset i lines h)
      · exact Or.inr h
    · exact Or.inl (List.drop_subset i lines h)
  · intro h
    rcases h with h | h
    · rw [← List.take_append_drop i lines] at h
      rcases List.mem_append.1 h with h | h
      · exact List.mem_append.2 (Or.inl (List.mem_append.2 (Or.inl h)))
      · exact List.mem_append.2 (Or.inr h)
    · exact List.mem_append.2 (Or.inl (List.mem_append.2 (Or.inr h)))

theorem insert_dead_code_cons (p : Program) (e : Nat × List Command)
    (rest : List (Nat × List Command)) :
    insert_dead_code p (e :: rest) =
      insert_dead_code { p with lines := insert_block p.lines e.1 e.2 } rest := by
  simp [insert_dead_code]

theorem insert_dead_code_mem {c : Command} :
    ∀ (ins : List (Nat × List Command)) (p : Program),
      c ∈ (insert_dead_code p ins).lines ↔
        c ∈ p.lines ∨ ∃ e ∈ ins, c ∈ e.2 := by
  intro ins
  induction ins with
  | nil => simp [insert_dead_code]
  | cons e rest ih =>
    intro p
    rw [insert_dead_code_cons, ih]
    simp only [mem_insert_block]
    constructor
    · rintro ((h | h) | ⟨f, hf, hc⟩)
      · exact Or.inl h
      · exact Or.inr ⟨e, List.mem_cons_self _ _, h⟩
      · exact Or.inr ⟨f, List.mem_cons_of_mem _ hf, hc⟩
    · rintro (h | ⟨f, hf, hc⟩)
      · exact Or.inl (Or.inl h)
      · rcases List.mem_cons.1 hf with rfl | hf
        · exact Or.inl (Or.inr hc)
        · exact Or.inr ⟨f, hf, hc⟩

theorem all_insertions_shape (ch : ObfChoices) (e : Nat × List Command)
    (he : e ∈ all_insertions ch) :
    e.2 = [Command.null] ∨
    (∃ a, e.2 = gen_push_del a) ∨
    (∃ a b, e.2 = gen_add_del a b) ∨
    (∃ a b, e.2 = gen_sub_del a b) ∨
    (∃ a, e.2 = gen_dup_add_del a) ∨
    (∃ x ∈ ch.ins5, e.2 = gen_div_mult_del x.2.1 x.2.2.1 x.2.2.2) ∨
    (∃ a b, e.2 = gen_dup_mult_del a b) := by
  simp only [all_insertions, List.mem_append, List.mem_map] at he
  rcases he with ((((((⟨i, _, rfl⟩ | ⟨x, _, rfl⟩) | ⟨x, _, rfl⟩) | ⟨x, _, rfl⟩) |
      ⟨x, _, rfl⟩) | ⟨x, hx, rfl⟩) | ⟨x, _, rfl⟩) | ⟨i, _, rfl⟩
  · exact Or.inl rfl
  · exact Or.inr (Or.inl ⟨x.2, rfl⟩)
  · exact Or.inr (Or.inr (Or.inl ⟨x.2.1, x.2.2, rfl⟩))
  · exact Or.inr (Or.inr (Or.inr (Or.inl ⟨x.2.1, x.2.2, rfl⟩)))
  · exact Or.inr (Or.inr (Or.inr (Or.inr (Or.inl ⟨x.2, rfl⟩))))
  · exact Or.inr (Or.inr (Or.inr (Or.inr (Or.inr (Or.inl ⟨x, hx, rfl⟩)))))
  · exact Or.inr (Or.inr (Or.inr (Or.inr (Or.inr (Or.inr ⟨x.2.1, x.2.2, rfl⟩)))))
  · exact Or.inl rfl

theorem block_no_push_label (ch : ObfChoices) (e : Nat × List Command)
    (he : e ∈ all_insertions ch) (l : List Char) :
    Command.push (PushArgument.label l) ∉ e.2 := by
  rcases all_insertions_shape ch e he with h | ⟨a, h⟩ | ⟨a, b, h⟩ | ⟨a, b, h⟩ |
    ⟨a, h⟩ | ⟨x, _, h⟩ | ⟨a, b, h⟩ <;>
    simp [h, gen_push_del, gen_add_del, gen_sub_del, gen_dup_add_del,
      gen_div_mult_del, gen_dup_mult_del]

theorem block_no_jump (ch : ObfChoices) (e : Nat × List Command)
    (he : e ∈ all_insertions ch) :
    Command.jmp ∉ e.2 ∧ Command.jmpC ∉ e.2 := by
  rcases all_insertions_shape ch e he with h | ⟨a, h⟩ | ⟨a, b, h⟩ | ⟨a, b, h⟩ |
    ⟨a, h⟩ | ⟨x, _, h⟩ | ⟨a, b, h⟩ <;>
    simp [h, gen_push_del, gen_add_del, gen_sub_del, gen_dup_add_del,
      gen_div_mult_del, gen_dup_mult_del]

theorem labels_get_isSome_of_mem {labels : List (List Char × Nat)}
    {l : List Char} {j : Nat} (h : (l, j) ∈ labels) :
    (labels_get labels l).isSome = true := by
  induction labels with
  | nil => cases h
  | cons kv rest ih =>
    by_cases hk : kv.1 = l
    · simp [labels_get, hk]
    · rcases List.mem_cons.1 h with h | h
      · exact absurd (congrArg Prod.fst h.symm) hk
      · simpa [labels_get, hk] using ih h

theorem relabel_go_acc_mem {l : List Char} {j : Nat} :
    ∀ (lines : List Command) (i : Nat) (acc : List (List Char × Nat)),
      (l, j) ∈ acc → (l, j) ∈ relabel_go lines i acc := by
  intro lines
  induction lines with
  | nil =>
    intro i acc h
    simpa [relabel_go] using h
  | cons c rest ih =>
    intro i acc h
    cases c <;>
      first
        | exact ih _ _ (List.mem_cons_of_mem _ h)
        | exact ih _ _ h

theorem relabel_mem_of_decl {l : List Char} :
    ∀ (lines : List Command) (i : Nat) (acc : List (List Char × Nat)),
      Command.label l ∈ lines → ∃ j, (l, j) ∈ relabel_go lines i acc := by
  intro lines
  induction lines with
  | nil => intro i acc h; cases h
  | cons c rest ih =>
    intro i acc h
    by_cases hc : c = Command.label l
    · subst hc
      exact ⟨i, relabel_go_acc_mem rest (i + 1) ((l, i) :: acc)
        (List.mem_cons_self _ _)⟩
    · have hmem : Command.label l ∈ rest := by
        rcases List.mem_cons.1 h with h | h
        · exact absurd h.symm hc
        · exact h
      cases c <;> exact ih _ _ hmem

theorem relabel_isSome {lines : List Command} {l : List Char}
    (h : Command.label l ∈ lines) :
    (labels_get (relabel lines) l).isSome = true := by
  obtain ⟨j, hj⟩ := relabel_mem_of_decl lines 0 [] h
  exact labels_get_isSome_of_mem hj

theorem substitute_labels_cons_other (labels : List (List Char × Nat))
    (c : Command) (rest : List Command)
    (hc : ∀ l, c ≠ Command.push (PushArgument.label l)) :
    substitute_labels labels (c :: rest) =
      (substitute_labels labels rest).map (fun ls => c :: ls) := by
  cases c <;> try rfl
  case push arg =>
    cases arg with
    | const k => rfl
    | label l => exact absurd rfl (hc l)

theorem substitute_labels_total (labels : List (List Char × Nat)) :
    ∀ lines : List Command,
      (∀ l, Command.push (PushArgument.label l) ∈ lines →
        (labels_get labels l).isSome = true) →
      ∃ ls, substitute_labels labels lines = some ls ∧
        has_push_label ls = false ∧
        (∀ l, Command.label l ∈ ls → Command.label l ∈ lines) := by
  intro lines
  induction lines with
  | nil => exact fun _ => ⟨[], rfl, rfl, by simp⟩
  | cons c rest ih =>
    intro h
    obtain ⟨ls, hls, hpl, hdecl⟩ :=
      ih (fun l hl => h l (List.mem_cons_of_mem _ hl))
    by_cases hc : ∃ l, c = Command.push (PushArgument.label l)
    · obtain ⟨l, rfl⟩ := hc
      obtain ⟨i, hi⟩ := Option.isSome_iff_exists.1 (h l (List.mem_cons_self _ _))
      refine ⟨Command.push (PushArgument.const (i32OfUsize i)) :: ls, ?_, ?_, ?_⟩
      · simp [substitute_labels, hi, hls]
      · simpa [has_push_label, is_push_label] using hpl
      · intro l' hl'
        rcases List.mem_cons.1 hl' with h' | h'
        · simp at h'
        · exact List.mem_cons_of_mem _ (hdecl l' h')
    · push_neg at hc
      have hcf : is_push_label c = false := is_push_label_eq_false.2 hc
      refine ⟨c :: ls, ?_, ?_, ?_⟩
      · rw [substitute_labels_cons_other labels c rest hc, hls]; rfl
      · simpa [has_push_label, hcf] using hpl
      · intro l' hl'
        rcases List.mem_cons.1 hl' with h' | h'
        · exact List.mem_cons.2 (Or.inl h')
        · exact List.mem_cons_of_mem _ (hdecl l' h')

theorem generate_fuxxor_eq (p : Program) (ch : ObfChoices) :
    generate_fuxxor p ch =
      (substitute_labels
        (relabel (insert_dead_code (strip_nulls p) (all_insertions ch)).lines)
        (insert_dead_code (strip_nulls p) (all_insertions ch)).lines).map
        (fun ls =>
          { lines := ls.map erase_label,
            labels :=
              relabel (insert_dead_code (strip_nulls p)
                (all_insertions ch)).lines }) := rfl

theorem has_push_label_erase (ls : List Command) :
    has_push_label (ls.map erase_label) = has_push_label ls := by
  induction ls with
  | nil => rfl
  | cons c rest ih =>
    have hc : is_push_label (erase_label c) = is_push_label c := by
      cases c <;> rfl
    simp only [List.map_cons, has_push_label, List.any_cons] at ih ⊢
    rw [hc, ih]

theorem has_label_decl_erase (ls : List Command) :
    has_label_decl (ls.map erase_label) = false := by
  induction ls with
  | nil => rfl
  | cons c rest ih =>
    have hc : is_label_decl (erase_label c) = false := by
      cases c <;> rfl
    simp only [List.map_cons, has_label_decl, List.any_cons] at ih ⊢
    rw [hc, ih]
    rfl

/-! Claim C7: no labels survive obfuscation. -/

/-- C7: for every input program in which every `PushLabel` name has a
matching `LabelDecl`, the obfuscation pipeline succeeds and its output
instruction sequence contains no `PushLabel` and no `LabelDecl`: every
label reference is replaced by a `PushConst` of the label's position in
the post-insertion sequence, and every declaration is erased to `NoOp`. -/
theorem C7_no_labels_after_obfuscation (p : Program) (ch : ObfChoices)
    (h : labels_matched p.lines = true) :
    ∃ q, generate_fuxxor p ch = some q ∧
      has_push_label q.lines = false ∧ has_label_decl q.lines = false := by
  have hmatch : ∀ l, Command.push (PushArgument.label l) ∈ p.lines →
      Command.label l ∈ p.lines := by
    intro l hl
    have h2 : (p.lines.any (fun d => decide (d = Command.label l))) = true :=
      (List.all_eq_true.1 h) _ hl
    rcases List.any_eq_true.1 h2 with ⟨d, hd, hdeq⟩
    have : d = Command.label l := of_decide_eq_true hdeq
    exact this ▸ hd
  have hpm : ∀ l, Command.push (PushArgument.label l) ∈
        (insert_dead_code (strip_nulls p) (all_insertions ch)).lines →
      (labels_get
        (relabel (insert_dead_code (strip_nulls p) (all_insertions ch)).lines)
        l).isSome = true := by
    intro l hl
    rcases (insert_dead_code_mem _ _).1 hl with hmem | ⟨e, he, hce⟩
    · have hp : Command.push (PushArgument.label l) ∈ p.lines := by
        simpa [strip_nulls] using List.mem_of_mem_filter hmem
      have hdecl := hmatch l hp
      have hdecl2 : Command.label l ∈ (strip_nulls p).lines := by
        simp [strip_nulls, List.mem_filter, hdecl]
      have hdecl3 : Command.label l ∈
          (insert_dead_code (strip_nulls p) (all_insertions ch)).lines :=
        (insert_dead_code_mem _ _).2 (Or.inl hdecl2)
      exact relabel_isSome hdecl3
    · exact absurd hce (block_no_push_label ch e he l)
  obtain ⟨ls, hls, hpl, _⟩ :=
    substitute_labels_total
      (relabel (insert_dead_code (strip_nulls p) (all_insertions ch)).lines)
      (insert_dead_code (strip_nulls p) (all_insertions ch)).lines hpm
  refine ⟨{ lines := ls.map erase_label,
            labels :=
              relabel (insert_dead_code (strip_nulls p)
                (all_insertions ch)).lines }, ?_, ?_, ?_⟩
  · rw [generate_fuxxor_eq, hls]
    rfl
  · rw [has_push_label_erase]
    exact hpl
  · exact has_label_decl_erase ls

/-- C7 witness: a two-line program declaring label `x` and pushing it,
with an empty set of random draws, obfuscates to a program with no label
references and no label declarations. -/
theorem C7_witness :
    ∃ q, generate_fuxxor
        { lines := [Command.label ['x'],
                    Command.push (PushArgument.label ['x'])],
          labels := [(['x'], 0)] }
        { nulls1 := [], ins1 := [], ins2 := [], ins3 := [], ins4 := [],
          ins5 := [], ins6 := [], nulls2 := [] } = some q ∧
      has_push_label q.lines = false ∧ has_label_decl q.lines = false :=
  C7_no_labels_after_obfuscation
    { lines := [Command.label ['x'], Command.push (PushArgument.label ['x'])],
      labels := [(['x'], 0)] }
    { nulls1 := [], ins1 := [], ins2 := [], ins3 := [], ins4 := [],
      ins5 := [], ins6 := [], nulls2 := [] }
    (by decide)

/-! Sequential (straight-line) semantics used to reason about jump-free
programs for claim C1. -/

/-- The components of a configuration that a non-jump instruction can
touch: everything except the program counter and the terminated flag. -/
structure SState where
  tape_head : Nat
  tape : List Data
  stack : List Data
  input : List Nat
  output : List Nat
deriving DecidableEq

/-- Result of executing straight-line instructions; errors and faults keep
the state reached just before the faulting command. -/
inductive SOut where
  | ok (s : SState)
  | err (e : ExecutionError) (s : SState)
  | fatal (s : SState)
deriving DecidableEq

/-- The effect of one instruction on the jump-independent components,
mirroring the corresponding arm of `execute_command`.  For `jmp`/`jmpC`
only the stack effect is mirrored; their program-counter effect has no
counterpart in `SState`, and the bridging lemma below is restricted to
non-jump instructions. -/
def execCmdS (program : Program) (command : Command) (s : SState) : SOut :=
  match command with
  | .left =>
    match s.tape_head with
    | 0 => .err .tapeHeadUnderflow s
    | k + 1 => .ok { s with tape_head := k }
  | .right => .ok { s with tape_head := s.tape_head + 1 }
  | .pushT =>
    match s.tape[s.tape_head]? with
    | none => .fatal s
    | some v => .ok { s with stack := v :: s.stack }
  | .push (.const c) => .ok { s with stack := c :: s.stack }
  | .push (.label l) =>
    match labels_get program.labels l with
    | none => .err (.invalidLabel l) s
    | some i => .ok { s with stack := i32OfUsize i :: s.stack }
  | .pop =>
    match s.stack with
    | [] => .err .stackUnderflow s
    | v :: rest =>
      .ok { s with tape := tapeWrite s.tape s.tape_head v, stack := rest }
  | .dup =>
    match s.stack with
    | [] => .err .stackUnderflow s
    | v :: rest => .ok { s with stack := v :: v :: rest }
  | .del =>
    match s.stack with
    | [] => .err .stackUnderflow s
    | _ :: rest => .ok { s with stack := rest }
  | .eq =>
    match s.stack with
    | a :: b :: rest =>
      .ok { s with stack := (if a = b then (1 : Data) else 0) :: rest }
    | _ => .err .stackUnderflow s
  | .not =>
    match s.stack with
    | a :: rest =>
      .ok { s with stack := (if a = 0 then (1 : Data) else 0) :: rest }
    | _ => .err .stackUnderflow s
  | .gt =>
    match s.stack with
    | a :: b :: rest =>
      .ok { s with stack := (if a > b then (1 : Data) else 0) :: rest }
    | _ => .err .stackUnderflow s
  | .lt =>
    match s.stack with
    | a :: b :: rest =>
      .ok { s with stack := (if a < b then (1 : Data) else 0) :: rest }
    | _ => .err .stackUnderflow s
  | .add =>
    match s.stack with
    | a :: b :: rest => .ok { s with stack := wrap32 (a + b) :: rest }
    | _ => .err .stackUnderflow s
  | .sub =>
    match s.stack with
    | a :: b :: rest => .ok { s with stack := wrap32 (a - b) :: rest }
    | _ => .err .stackUnderflow s
  | .mult =>
    match s.stack with
    | a :: b :: rest => .ok { s with stack := wrap32 (a * b) :: rest }
    | _ => .err .stackUnderflow s
  | .div =>
    match s.stack with
    | a :: b :: rest =>
      if b = 0 ∨ (a = intMin ∧ b = -1) then .fatal s
      else .ok { s with stack := Int.tdiv a b :: rest }
    | _ => .err .stackUnderflow s
  | .mod =>
    match s.stack with
    | a :: b :: rest =>
      if b = 0 ∨ (a = intMin ∧ b = -1) then .fatal s
      else .ok { s with stack := Int.tmod a b :: rest }
    | _ => .err .stackUnderflow s
  | .read =>
    match s.input with
    | [] => .fatal s
    | b :: rest => .ok { s with stack := (b : Int) :: s.stack, input := rest }
  | .print =>
    match s.stack with
    | [] => .err .stackUnderflow s
    | v :: rest => .ok { s with stack := rest, output := s.output ++ [byteOf v] }
  | .jmp =>
    match s.stack with
    | [] => .err .stackUnderflow s
    | _ :: rest => .ok { s with stack := rest }
  | .jmpC =>
    match s.stack with
    | _ :: _ :: rest => .ok { s with stack := rest }
    | _ => .err .stackUnderflow s
  | .label _ => .ok s
  | .null => .ok s

/-- Run a command list sequentially, stopping at the first fault. -/
def execList (program : Program) : List Command → SOut → SOut
  | [], r => r
  | c :: cs, .ok s => execList program cs (execCmdS program c s)
  | _ :: _, .err e s => .err e s
  | _ :: _, .fatal s => .fatal s

/-- The jump-independent components of a configuration. -/
def sstateOf (cfg : Config) : SState :=
  { tape_head := cfg.machine.tape_head, tape := cfg.machine.tape,
    stack := cfg.machine.stack, input := cfg.input, output := cfg.output }

/-- Rebuild a configuration from components, a program counter, and a
terminated flag. -/
def configOf (pc : Nat) (term : Bool) (s : SState) : Config :=
  { machine := { program_counter := pc, tape_head := s.tape_head,
                 tape := s.tape, stack := s.stack, terminated := term },
    input := s.input, output := s.output }

theorem sstateOf_configOf (pc : Nat) (term : Bool) (s : SState) :
    sstateOf (configOf pc term s) = s := rfl

/-- Lift a straight-line outcome back to a `StepResult` at the given
(pre-advance) program counter. -/
def liftS (p : Program) (pc : Nat) (r : SOut) : StepResult :=
  match r with
  | .ok s => finish_step p (configOf (pc + 1) false s)
  | .err e _ => .err e
  | .fatal _ => .fatal

theorem execute_fetched_eq_execCmdS (p : Program) (cfg : Config)
    (command : Command) (hterm : cfg.machine.terminated = false)
    (h1 : command ≠ Command.jmp) (h2 : command ≠ Command.jmpC) :
    execute_fetched p cfg command =
      liftS p cfg.machine.program_counter (execCmdS p command (sstateOf cfg)) := by
  obtain ⟨⟨pc, th, tp, st, tm⟩, inp, out⟩ := cfg
  simp only at hterm
  subst hterm
  cases command <;>
    first
      | exact absurd rfl h1
      | exact absurd rfl h2
      | (simp only [execute_fetched, execCmdS, sstateOf] <;>
          (repeat' split) <;> simp_all [liftS, configOf])

/-- Observation of a driver-loop outcome: the termination kind together
with the observable components (output, tape, and the rest of the state);
`none` when the fuel ran out before an outcome was reached. -/
def observe : RunResult → Option SOut
  | .done c => some (.ok (sstateOf c))
  | .failed e c => some (.err e (sstateOf c))
  | .fatal c => some (.fatal (sstateOf c))
  | .outOfFuel _ => none

theorem execList_absorb (p : Program) (cs : List Command) :
    (∀ e s, execList p cs (.err e s) = .err e s) ∧
    (∀ s, execList p cs (.fatal s) = .fatal s) := by
  cases cs <;> simp [execList]

theorem execList_append (p : Program) :
    ∀ (xs ys : List Command) (r : SOut),
      execList p (xs ++ ys) r = execList p ys (execList p xs r) := by
  intro xs
  induction xs with
  | nil => intro ys r; rfl
  | cons c cs ih =>
    intro ys r
    cases r with
    | ok s => simpa [execList] using ih ys (execCmdS p c s)
    | err e s => simp [execList, (execList_absorb p ys).1]
    | fatal s => simp [execList, (execList_absorb p ys).2]

theorem execCmdS_err_state (p : Program) (c : Command) (s : SState) :
    ∀ e s', execCmdS p c s = .err e s' → s' = s := by
  intro e s'
  cases c <;> simp only [execCmdS] <;> (repeat' split) <;>
    intro h <;> simp_all

theorem execCmdS_fatal_state (p : Program) (c : Command) (s : SState) :
    ∀ s', execCmdS p c s = .fatal s' → s' = s := by
  intro s'
  cases c <;> simp only [execCmdS] <;> (repeat' split) <;>
    intro h <;> simp_all

theorem run_eq_execList (p : Program) (hjf : has_jump p.lines = false) :
    ∀ (n : Nat) (cfg : Config),
      cfg.machine.program_counter + n = p.lines.length →
      cfg.machine.terminated =
        decide (p.lines.length ≤ cfg.machine.program_counter) →
      observe (run (n + 1) p cfg) =
        some (execList p (p.lines.drop cfg.machine.program_counter)
          (.ok (sstateOf cfg))) := by
  have hjf2 := has_jump_eq_false.1 hjf
  intro n
  induction n with
  | zero =>
    intro cfg hpc hterm
    have hge : p.lines.length ≤ cfg.machine.program_counter := by omega
    have hterm2 : cfg.machine.terminated = true := by
      rw [hterm]; simpa using hge
    have hdrop : p.lines.drop cfg.machine.program_counter = [] :=
      List.drop_eq_nil_of_le hge
    simp [run, hterm2, observe, hdrop, execList]
  | succ k ih =>
    intro cfg hpc hterm
    have hlt : cfg.machine.program_counter < p.lines.length := by omega
    have hterm2 : cfg.machine.terminated = false := by
      rw [hterm]
      simpa using by omega
    obtain ⟨cmd, hget⟩ : ∃ cmd,
        p.lines[cfg.machine.program_counter]? = some cmd :=
      ⟨p.lines[cfg.machine.program_counter], List.getElem?_eq_getElem hlt⟩
    have hcmd_mem : cmd ∈ p.lines := List.getElem?_mem hget
    have hnj := hjf2 cmd hcmd_mem
    have hdrop : p.lines.drop cfg.machine.program_counter =
        cmd :: p.lines.drop (cfg.machine.program_counter + 1) := by
      rw [List.drop_eq_getElem_cons hlt]
      have h2 := List.getElem?_eq_getElem hlt
      rw [hget] at h2
      rw [Option.some.injEq] at h2
      rw [h2]
    have hstep : execute_command p cfg =
        liftS p cfg.machine.program_counter
          (execCmdS p cmd (sstateOf cfg)) := by
      rw [execute_command]
      simp only [hterm2, Bool.false_eq_true, if_false]
      rw [fetch_execute, hget]
      exact execute_fetched_eq_execCmdS p cfg cmd hterm2 hnj.1 hnj.2
    rw [hdrop]
    cases hsc : execCmdS p cmd (sstateOf cfg) with
    | ok s =>
      have hrun : run (k + 1 + 1) p cfg =
          run (k + 1) p
            (configOf (cfg.machine.program_counter + 1)
              (decide (p.lines.length ≤ cfg.machine.program_counter + 1)) s) := by
        rw [run]
        simp only [hterm2, Bool.false_eq_true, if_false]
        rw [hstep, hsc]
        simp only [liftS, finish_step, configOf]
        by_cases hend : p.lines.length ≤ cfg.machine.program_counter + 1 <;>
          simp [hend]
      rw [hrun]
      rw [ih (configOf (cfg.machine.program_counter + 1)
          (decide (p.lines.length ≤ cfg.machine.program_counter + 1)) s)
          (by simp [configOf]; omega) (by simp [configOf])]
      simp only [configOf, sstateOf_configOf, execList, hsc]
      rfl
    | err e s =>
      have hs : s = sstateOf cfg := execCmdS_err_state p cmd (sstateOf cfg) e s hsc
      subst hs
      have hrun : run (k + 1 + 1) p cfg = .failed e cfg := by
        rw [run]
        simp only [hterm2, Bool.false_eq_true, if_false]
        rw [hstep, hsc]
        rfl
      rw [hrun]
      simp [observe, execList, hsc, execList_absorb]
    | fatal s =>
      have hs : s = sstateOf cfg := execCmdS_fatal_state p cmd (sstateOf cfg) s hsc
      subst hs
      have hrun : run (k + 1 + 1) p cfg = .fatal cfg := by
        rw [run]
        simp only [hterm2, Bool.false_eq_true, if_false]
        rw [hstep, hsc]
        rfl
      rw [hrun]
      simp [observe, execList, hsc, execList_absorb]

theorem execList_gen_push_del (p : Program) (a : Data) (s : SState) :
    execList p (gen_push_del a) (.ok s) = .ok s := by
  simp [gen_push_del, execList, execCmdS]

theorem execList_gen_add_del (p : Program) (a b : Data) (s : SState) :
    execList p (gen_add_del a b) (.ok s) = .ok s := by
  simp [gen_add_del, execList, execCmdS]

theorem execList_gen_sub_del (p : Program) (a b : Data) (s : SState) :
    execList p (gen_sub_del a b) (.ok s) = .ok s := by
  simp [gen_sub_del, execList, execCmdS]

theorem execList_gen_dup_add_del (p : Program) (a : Data) (s : SState) :
    execList p (gen_dup_add_del a) (.ok s) = .ok s := by
  simp [gen_dup_add_del, execList, execCmdS]

theorem execList_gen_div_mult_del (p : Program) (a b c : Data)
    (ha : (3 : Int) ≤ a) (s : SState) :
    execList p (gen_div_mult_del a b c) (.ok s) = .ok s := by
  have h : ¬(a = 0 ∨ (b = intMin ∧ a = -1)) := by
    rintro (rfl | ⟨_, rfl⟩) <;> omega
  simp [gen_div_mult_del, execList, execCmdS, h]

theorem execList_gen_dup_mult_del (p : Program) (a b : Data) (s : SState) :
    execList p (gen_dup_mult_del a b) (.ok s) = .ok s := by
  simp [gen_dup_mult_del, execList, execCmdS]

theorem wfChoices_ins5 (p : Program) (ch : ObfChoices)
    (h : wfChoices p ch = true) :
    ∀ x ∈ ch.ins5, (3 : Int) ≤ x.2.1 := by
  intro x hx
  simp only [wfChoices, Bool.and_eq_true, List.all_eq_true] at h
  have := h.1.2 x hx
  simp only [Bool.and_eq_true, decide_eq_true_eq] at this
  exact this.1.1.1.1.1

theorem block_neutral (p : Program) (ch : ObfChoices)
    (h5 : ∀ x ∈ ch.ins5, (3 : Int) ≤ x.2.1)
    (e : Nat × List Command) (he : e ∈ all_insertions ch) :
    ∀ s, execList p e.2 (.ok s) = .ok s := by
  rcases all_insertions_shape ch e he with h | ⟨a, h⟩ | ⟨a, b, h⟩ | ⟨a, b, h⟩ |
    ⟨a, h⟩ | ⟨x, hx, h⟩ | ⟨a, b, h⟩ <;> intro s <;> rw [h]
  · simp [execList, execCmdS]
  · exact execList_gen_push_del p a s
  · exact execList_gen_add_del p a b s
  · exact execList_gen_sub_del p a b s
  · exact execList_gen_dup_add_del p a s
  · exact execList_gen_div_mult_del p x.2.1 x.2.2.1 x.2.2.2 (h5 x hx) s
  · exact execList_gen_dup_mult_del p a b s

theorem execList_insert_block (p : Program) (lines : List Command) (i : Nat)
    (B : List Command) (hB : ∀ s, execList p B (.ok s) = .ok s) (r : SOut) :
    execList p (insert_block lines i B) r = execList p lines r := by
  rw [show insert_block lines i B = (lines.take i ++ B) ++ lines.drop i from
      rfl,
    execList_append, execList_append]
  conv_rhs => rw [← List.take_append_drop i lines]
  rw [execList_append]
  congr 1
  cases hres : execList p (lines.take i) r with
  | ok s => exact hB s
  | err e s => exact (execList_absorb p B).1 e s
  | fatal s => exact (execList_absorb p B).2 s

theorem execList_insert_dead_code (p : Program) (ch : ObfChoices)
    (h5 : ∀ x ∈ ch.ins5, (3 : Int) ≤ x.2.1) :
    ∀ (ins : List (Nat × List Command)),
      (∀ e ∈ ins, e ∈ all_insertions ch) →
      ∀ (q : Program) (r : SOut),
        execList p (insert_dead_code q ins).lines r = execList p q.lines r := by
  intro ins
  induction ins with
  | nil => intro _ q r; rfl
  | cons e rest ih =>
    intro hsub q r
    rw [insert_dead_code_cons,
      ih (fun f hf => hsub f (List.mem_cons_of_mem _ hf))]
    exact execList_insert_block p q.lines e.1 e.2
      (block_neutral p ch h5 e (hsub e (List.mem_cons_self _ _))) r

theorem execList_filter_null (p : Program) :
    ∀ (lines : List Command) (r : SOut),
      execList p (lines.filter (fun c => c ≠ Command.null)) r =
        execList p lines r := by
  intro lines
  induction lines with
  | nil => intro r; rfl
  | cons c rest ih =>
    intro r
    by_cases hc : c = Command.null
    · subst hc
      rw [List.filter_cons_of_neg (by simp), ih r]
      cases r <;>
        simp [execList, execCmdS, (execList_absorb p rest).1,
          (execList_absorb p rest).2]
    · rw [List.filter_cons_of_pos (by simp [hc])]
      cases r with
      | ok s =>
        simp only [execList]
        exact ih _
      | err e s => simp [execList]
      | fatal s => simp [execList]

theorem execCmdS_erase (p : Program) (c : Command) (s : SState) :
    execCmdS p (erase_label c) s = execCmdS p c s := by
  cases c <;> rfl

theorem execList_erase (p : Program) :
    ∀ (lines : List Command) (r : SOut),
      execList p (lines.map erase_label) r = execList p lines r := by
  intro lines
  induction lines with
  | nil => intro r; rfl
  | cons c rest ih =>
    intro r
    cases r with
    | ok s =>
      simp only [List.map_cons, execList, execCmdS_erase]
      exact ih _
    | err e s => rfl
    | fatal s => rfl

theorem execCmdS_prog_irrel (p q : Program) (c : Command)
    (hc : is_push_label c = false) (s : SState) :
    execCmdS p c s = execCmdS q c s := by
  cases c <;> try rfl
  case push arg =>
    cases arg with
    | const k => rfl
    | label l => simp [is_push_label] at hc

theorem execList_prog_irrel (p q : Program) :
    ∀ (lines : List Command), has_push_label lines = false →
      ∀ r, execList p lines r = execList q lines r := by
  intro lines
  induction lines with
  | nil => intro _ r; rfl
  | cons c rest ih =>
    intro h r
    obtain ⟨hc, hrest⟩ : is_push_label c = false ∧ has_push_label rest = false := by
      simpa [has_push_label, List.any_cons, Bool.or_eq_false_iff] using h
    cases r with
    | ok s =>
      simp only [execList]
      rw [execCmdS_prog_irrel p q c hc, ih hrest]
    | err e s => rfl
    | fatal s => rfl

theorem substitute_labels_id (labels : List (List Char × Nat)) :
    ∀ lines : List Command, has_push_label lines = false →
      substitute_labels labels lines = some lines := by
  intro lines
  induction lines with
  | nil => intro _; rfl
  | cons c rest ih =>
    intro h
    obtain ⟨hc, hrest⟩ : is_push_label c = false ∧ has_push_label rest = false := by
      simpa [has_push_label, List.any_cons, Bool.or_eq_false_iff] using h
    rw [substitute_labels_cons_other labels c rest (is_push_label_eq_false.1 hc),
      ih hrest]
    rfl

theorem strip_no_push_label (p : Program) (h : has_push_label p.lines = false) :
    has_push_label (strip_nulls p).lines = false := by
  rw [has_push_label_eq_false] at h ⊢
  intro l hl
  exact h l (List.mem_of_mem_filter hl)

theorem spliced_no_push_label (p : Program) (ch : ObfChoices)
    (h : has_push_label p.lines = false) :
    has_push_label
      (insert_dead_code (strip_nulls p) (all_insertions ch)).lines = false := by
  rw [has_push_label_eq_false]
  intro l hl
  rcases (insert_dead_code_mem _ _).1 hl with hm | ⟨e, he, hce⟩
  · exact has_push_label_eq_false.1 (strip_no_push_label p h) l hm
  · exact block_no_push_label ch e he l hce

theorem spliced_no_jump (p : Program) (ch : ObfChoices)
    (h : has_jump p.lines = false) :
    has_jump
      (insert_dead_code (strip_nulls p) (all_insertions ch)).lines = false := by
  rw [has_jump_eq_false]
  intro c hc
  rcases (insert_dead_code_mem _ _).1 hc with hm | ⟨e, he, hce⟩
  · exact has_jump_eq_false.1 h c (List.mem_of_mem_filter hm)
  · constructor
    · intro hcEq
      exact (block_no_jump ch e he).1 (hcEq ▸ hce)
    · intro hcEq
      exact (block_no_jump ch e he).2 (hcEq ▸ hce)

theorem has_jump_erase (ls : List Command) :
    has_jump (ls.map erase_label) = has_jump ls := by
  induction ls with
  | nil => rfl
  | cons c rest ih =>
    have hc : is_jump (erase_label c) = is_jump c := by
      cases c <;> rfl
    simp only [List.map_cons, has_jump, List.any_cons] at ih ⊢
    rw [hc, ih]

/-! Claim C1: behavior preservation of the obfuscation pipeline. -/

/-- The label-reference-free program `push 2; jmp` used to refute claim
C1.  It jumps to absolute address 2, the end of the sequence, so it
terminates normally. -/
def C1prog : Program := progOf [.push (.const 2), .jmp]

/-- A valid set of random draws inserting the single dead-code block
`push 5; del` (family 1, constant in `-3..10`) at position 1. -/
def C1choices : ObfChoices :=
  { nulls1 := [], ins1 := [(1, 5)], ins2 := [], ins3 := [], ins4 := [],
    ins5 := [], ins6 := [], nulls2 := [] }

/-- The pipeline output for `C1prog` under `C1choices`. -/
def C1obf : Program :=
  progOf [.push (.const 2), .push (.const 5), .del, .jmp]

/-- C1 counterexample: the claim asserts behavior preservation for every
program free of label references.  `C1prog` is label-reference-free and
the draws `C1choices` are valid, yet the original run terminates normally
(with empty output and tape) while the obfuscated program jumps to
address 2 — which dead-code insertion has shifted onto the middle of an
injected block — and crashes with `StackUnderflow`: the termination
outcomes differ. -/
theorem C1_counterexample :
    has_push_label C1prog.lines = false ∧
    wfChoices C1prog C1choices = true ∧
    generate_fuxxor C1prog C1choices = some C1obf ∧
    observe (run 10 C1obf (initConfig [])) ≠
      observe (run 10 C1prog (initConfig [])) := by
  decide

/-- C1 amended: for every program that is free of label references *and
of jump instructions* and has at least one non-`NoOp` line, and for every
valid set of random draws (hence every instruction-count budget of
injected dead code), the pipeline succeeds and executing its output with
the same input byte stream is observationally identical to executing the
original program: same termination outcome (normal, recoverable error, or
fatal fault), byte-identical output, and identical final tape contents.
(The jump restriction is forced by the counterexample: injected dead code
shifts the absolute addresses that computed jump targets refer to; the
non-`NoOp` restriction is forced because stripping an all-`NoOp` program
yields an empty program, whose first step faults with `InvalidLine`.) -/
theorem C1_amended (p : Program) (ch : ObfChoices) (input : List Nat)
    (hpl : has_push_label p.lines = false)
    (hjf : has_jump p.lines = false)
    (hnn : p.lines.any (fun c => c ≠ Command.null) = true)
    (hwf : wfChoices p ch = true) :
    ∃ q, generate_fuxxor p ch = some q ∧
      observe (run (q.lines.length + 1) q (initConfig input)) =
        observe (run (p.lines.length + 1) p (initConfig input)) ∧
      (observe (run (p.lines.length + 1) p (initConfig input))).isSome = true := by
  have h5 := wfChoices_ins5 p ch hwf
  set L := (insert_dead_code (strip_nulls p) (all_insertions ch)).lines
    with hLdef
  have hplL : has_push_label L = false := spliced_no_push_label p ch hpl
  have hjfL : has_jump L = false := spliced_no_jump p ch hjf
  have hsub : substitute_labels (relabel L) L = some L :=
    substitute_labels_id (relabel L) L hplL
  have hgen : generate_fuxxor p ch =
      some { lines := L.map erase_label, labels := relabel L } := by
    rw [generate_fuxxor_eq, ← hLdef, hsub]
    rfl
  obtain ⟨c0, hc0mem, hc0dec⟩ := List.any_eq_true.1 hnn
  have hc0 : c0 ≠ Command.null := of_decide_eq_true hc0dec
  have hc0S : c0 ∈ (strip_nulls p).lines := by
    simp [strip_nulls, List.mem_filter, hc0mem, hc0]
  have hc0L : c0 ∈ L := by
    rw [hLdef]
    exact (insert_dead_code_mem _ _).2 (Or.inl hc0S)
  have hppos : 0 < p.lines.length :=
    List.length_pos.2 (List.ne_nil_of_mem hc0mem)
  have hLpos : 0 < (L.map erase_label).length := by
    simpa using List.length_pos.2 (List.ne_nil_of_mem hc0L)
  have hjfQ : has_jump (L.map erase_label) = false := by
    rw [has_jump_erase]
    exact hjfL
  have h1 := run_eq_execList p hjf p.lines.length (initConfig input)
    (by simp [initConfig, initMachine])
    (by
      simpa [initConfig, initMachine] using
        (decide_eq_false (by omega : ¬ p.lines.length ≤ 0)).symm)
  have h2 := run_eq_execList
    { lines := L.map erase_label, labels := relabel L } hjfQ
    (L.map erase_label).length (initConfig input)
    (by simp [initConfig, initMachine])
    (by
      simpa [initConfig, initMachine] using
        (decide_eq_false (by omega : ¬ (L.map erase_label).length ≤ 0)).symm)
  have h1A : observe (run (p.lines.length + 1) p (initConfig input)) =
      some (execList p p.lines (.ok (sstateOf (initConfig input)))) := h1
  have h2A : observe (run ((L.map erase_label).length + 1)
        { lines := L.map erase_label, labels := relabel L }
        (initConfig input)) =
      some (execList { lines := L.map erase_label, labels := relabel L }
        (L.map erase_label) (.ok (sstateOf (initConfig input)))) := h2
  have hchain :
      execList { lines := L.map erase_label, labels := relabel L }
        (L.map erase_label)
        (.ok (sstateOf (initConfig input))) =
      execList p p.lines (.ok (sstateOf (initConfig input))) := by
    rw [execList_erase,
      execList_prog_irrel { lines := L.map erase_label, labels := relabel L }
        p L hplL,
      hLdef,
      execList_insert_dead_code p ch h5 (all_insertions ch) (fun e he => he)
        (strip_nulls p),
      show (strip_nulls p).lines =
        p.lines.filter (fun c => c ≠ Command.null) from rfl,
      execList_filter_null]
  refine ⟨{ lines := L.map erase_label, labels := relabel L }, hgen, ?_, ?_⟩
  · exact h2A.trans ((congrArg some hchain).trans h1A.symm)
  · rw [h1A]
    rfl

/-- A jump-free witness program: `push 65; print`. -/
def C1wprog : Program := progOf [.push (.const 65), .print]

/-- Witness draws: one `Null` padding at position 0 and one dead-code
block `push 2; push 3; add; del` (family 2) at position 1. -/
def C1wchoices : ObfChoices :=
  { nulls1 := [0], ins1 := [], ins2 := [(1, 2, 3)], ins3 := [], ins4 := [],
    ins5 := [], ins6 := [], nulls2 := [] }

/-- C1 witness: obfuscating `push 65; print` with the witness draws
preserves the observation (the byte 65 printed, empty tape, normal
termination). -/
theorem C1_amended_witness :
    ∃ q, generate_fuxxor C1wprog C1wchoices = some q ∧
      observe (run (q.lines.length + 1) q (initConfig [])) =
        observe (run (C1wprog.lines.length + 1) C1wprog (initConfig [])) ∧
      (observe (run (C1wprog.lines.length + 1) C1wprog
        (initConfig []))).isSome = true :=
  C1_amended C1wprog C1wchoices [] (by decide) (by decide) (by decide)
    (by decide)

/-! The parser (`fn parse_program`) and the textual rendering
(`impl ToString for Command`), over `List Char` strings. -/

/-- The ASCII uppercase/lowercase pairs of `str::to_lowercase` (the source
only ever feeds ASCII opcode text; non-ASCII characters are unchanged by
this model, as they are by Rust for all characters without a lowercase
mapping). -/
def lowerPairs : List (Char × Char) :=
  [('A', 'a'), ('B', 'b'), ('C', 'c'), ('D', 'd'), ('E', 'e'), ('F', 'f'),
   ('G', 'g'), ('H', 'h'), ('I', 'i'), ('J', 'j'), ('K', 'k'), ('L', 'l'),
   ('M', 'm'), ('N', 'n'), ('O', 'o'), ('P', 'p'), ('Q', 'q'), ('R', 'r'),
   ('S', 's'), ('T', 't'), ('U', 'u'), ('V', 'v'), ('W', 'w'), ('X', 'x'),
   ('Y', 'y'), ('Z', 'z')]

/-- Lowercase one character. -/
def lowerChar (c : Char) : Char :=
  ((lowerPairs.find? (fun q => q.1 = c)).map Prod.snd).getD c

/-- `str::to_lowercase` on a line. -/
def to_lowercase (s : List Char) : List Char := s.map lowerChar

/-- One character of whitespace (`char::is_whitespace`). -/
def isWhite (c : Char) : Bool := c.isWhitespace

/-- `str::trim`: drop leading and trailing whitespace. -/
def trim (s : List Char) : List Char :=
  ((s.dropWhile isWhite).reverse.dropWhile isWhite).reverse

/-- Fuelled worker for `split_whitespace`; the fuel only needs to cover
the length of the remaining input (each step consumes at least one
character), which keeps the recursion structural. -/
def splitWSF : Nat → List Char → List (List Char)
  | 0, _ => []
  | _ + 1, [] => []
  | fuel + 1, c :: rest =>
    if isWhite c then splitWSF fuel rest
    else (c :: rest.takeWhile (fun d => !isWhite d)) ::
      splitWSF fuel (rest.dropWhile (fun d => !isWhite d))

/-- `str::split_whitespace`: the maximal runs of non-whitespace
characters. -/
def splitWS (s : List Char) : List (List Char) := splitWSF s.length s

/-- Accumulating decimal parse: all remaining characters must be ASCII
digits. -/
def parseDigitsAux : List Char → Nat → Option Nat
  | [], acc => some acc
  | c :: rest, acc =>
    if c.isDigit then parseDigitsAux rest (acc * 10 + (c.toNat - 48))
    else none

/-- `str::parse::<i32>`: an optional sign followed by at least one decimal
digit, with the `i32` range check (out-of-range input is a parse error,
which the `push` argument handling then treats as a label). -/
def parse_i32 (s : List Char) : Option Int :=
  match s with
  | [] => none
  | c :: rest =>
    if c = '+' then
      match rest, parseDigitsAux rest 0 with
      | _ :: _, some n => if n ≤ 2 ^ 31 - 1 then some (n : Int) else none
      | _, _ => none
    else if c = '-' then
      match rest, parseDigitsAux rest 0 with
      | _ :: _, some n => if n ≤ 2 ^ 31 then some (-(n : Int)) else none
      | _, _ => none
    else
      match parseDigitsAux (c :: rest) 0 with
      | some n => if n ≤ 2 ^ 31 - 1 then some (n : Int) else none
      | none => none

/-- `fn is_comment`, applied to the trimmed, lowercased line. -/
def is_comment (line : List Char) : Bool :=
  decide (line.head? = some '#') || decide (line.take 2 = ['/', '/']) ||
    decide (line.head? = some ';')

/-- The opcode match of `parse_program`: the first token together with the
optional second token selects a command; `push` requires an argument
(matching `("push", Some arg)`), every other opcode ignores it.  `none`
falls through to the label-declaration handling. -/
def parse_command (command_text : List Char) (arg : Option (List Char)) :
    Option Command :=
  if command_text = "left".toList then some Command.left
  else if command_text = "right".toList then some Command.right
  else if command_text = "pusht".toList then some Command.pushT
  else if command_text = "push".toList then
    match arg with
    | some a =>
      some (Command.push (match parse_i32 a with
        | some c => PushArgument.const c
        | none => PushArgument.label a))
    | none => none
  else if command_text = "pop".toList then some Command.pop
  else if command_text = "dup".toList then some Command.dup
  else if command_text = "del".toList then some Command.del
  else if command_text = "eq".toList then some Command.eq
  else if command_text = "not".toList then some Command.not
  else if command_text = "gt".toList then some Command.gt
  else if command_text = "lt".toList then some Command.lt
  else if command_text = "add".toList then some Command.add
  else if command_text = "sub".toList then some Command.sub
  else if command_text = "mult".toList then some Command.mult
  else if command_text = "div".toList then some Command.div
  else if command_text = "mod".toList then some Command.mod
  else if command_text = "read".toList then some Command.read
  else if command_text = "print".toList then some Command.print
  else if command_text = "jmp".toList then some Command.jmp
  else if command_text = "jmpc".toList then some Command.jmpC
  else none

/-- One iteration of the parsing loop: trim and lowercase the raw line,
emit `Null` for comments and blank lines, try the opcode match, and
otherwise require a label declaration (`assert!(ends_with(':'))`, whose
failure aborts the process and is modelled as `none`); the label name is
the part of the token before the first colon, recorded at the line's
position. -/
def parse_line (program : Program) (raw : List Char) : Option Program :=
  let line := to_lowercase (trim raw)
  if is_comment line || line.isEmpty then
    some { program with lines := program.lines ++ [Command.null] }
  else
    match splitWS line with
    | [] => some { program with lines := program.lines ++ [Command.null] }
    | command_text :: args =>
      match parse_command command_text args.head? with
      | some command =>
        some { program with lines := program.lines ++ [command] }
      | none =>
        if command_text.getLast? = some ':' then
          some { lines := program.lines ++
                   [Command.label (command_text.takeWhile (fun c => c ≠ ':'))],
                 labels := (command_text.takeWhile (fun c => c ≠ ':'),
                   program.lines.length) :: program.labels }
        else none

/-- Fold `parse_line` over the lines of the source text. -/
def parse_lines (program : Program) : List (List Char) → Option Program
  | [] => some program
  | line :: rest =>
    match parse_line program line with
    | some p2 => parse_lines p2 rest
    | none => none

/-- `fn parse_program`, over the list of lines of the source text
(`prog_string.lines()`). -/
def parse_program (text : List (List Char)) : Option Program :=
  parse_lines { lines := [], labels := [] } text

/-- Fuelled worker for decimal rendering; fuel `n` covers a positive `n`
because the argument at least halves each step. -/
def natReprAux : Nat → Nat → List Char
  | 0, _ => []
  | _ + 1, 0 => []
  | fuel + 1, n + 1 =>
    natReprAux fuel ((n + 1) / 10) ++ [Nat.digitChar ((n + 1) % 10)]

/-- Decimal rendering of a natural number (`format!("{}", ..)`). -/
def natRepr (n : Nat) : List Char :=
  if n = 0 then ['0'] else natReprAux n n

/-- Decimal rendering of an integer. -/
def intRepr (v : Int) : List Char :=
  if v < 0 then '-' :: natRepr (-v).toNat else natRepr v.toNat

/-- `impl ToString for Command`: the canonical lowercase mnemonic line of
each instruction. -/
def Command.to_string : Command → List Char
  | Command.left => "left".toList
  | Command.right => "right".toList
  | Command.pushT => "pusht".toList
  | Command.push (PushArgument.const c) => "push ".toList ++ intRepr c
  | Command.push (PushArgument.label l) => "push ".toList ++ l
  | Command.pop => "pop".toList
  | Command.dup => "dup".toList
  | Command.del => "del".toList
  | Command.eq => "eq".toList
  | Command.not => "not".toList
  | Command.gt => "gt".toList
  | Command.lt => "lt".toList
  | Command.add => "add".toList
  | Command.sub => "sub".toList
  | Command.mult => "mult".toList
  | Command.div => "div".toList
  | Command.mod => "mod".toList
  | Command.read => "read".toList
  | Command.print => "print".toList
  | Command.jmp => "jmp".toList
  | Command.jmpC => "jmpc".toList
  | Command.label l => l ++ [':']
  | Command.null => []

/-- Render a program back to its lines of text, as the obfuscator's
serialization does before adding whitespace noise. -/
def render_program (p : Program) : List (List Char) :=
  p.lines.map Command.to_string

/-! Claim C10: a bare `push` line aborts parsing. -/

/-- C10: for the input line `push` with no argument, the opcode match
rejects the token (the `("push", Some arg)` arm needs an argument), the
token does not end with a colon, so the malformed-label assertion fires
and parsing aborts (modelled as `none`) before producing any instruction
and before any execution. -/
theorem C10_bare_push_aborts :
    parse_command ['p', 'u', 's', 'h'] none = none ∧
    (['p', 'u', 's', 'h'].getLast? = some ':') = False ∧
    parse_program [['p', 'u', 's', 'h']] = none := by
  refine ⟨by decide, by simp, by decide⟩

/-! Claim C8: the label table built by the parser. -/

set_option maxHeartbeats 1000000 in
theorem parse_command_ne_label (ct : List Char) (a : Option (List Char))
    (c : Command) (h : parse_command ct a = some c) :
    ∀ l, c ≠ Command.label l := by
  intro l hl
  subst hl
  unfold parse_command at h
  by_cases h1 : ct = "left".toList
  · rw [if_pos h1] at h
    exact Command.noConfusion (Option.some.inj h)
  rw [if_neg h1] at h
  by_cases h2 : ct = "right".toList
  · rw [if_pos h2] at h
    exact Command.noConfusion (Option.some.inj h)
  rw [if_neg h2] at h
  by_cases h3 : ct = "pusht".toList
  · rw [if_pos h3] at h
    exact Command.noConfusion (Option.some.inj h)
  rw [if_neg h3] at h
  by_cases h4 : ct = "push".toList
  · rw [if_pos h4] at h
    cases a with
    | none => exact Option.noConfusion h
    | some x => exact Command.noConfusion (Option.some.inj h)
  rw [if_neg h4] at h
  by_cases h5 : ct = "pop".toList
  · rw [if_pos h5] at h
    exact Command.noConfusion (Option.some.inj h)
  rw [if_neg h5] at h
  by_cases h6 : ct = "dup".toList
  · rw [if_pos h6] at h
    exact Command.noConfusion (Option.some.inj h)
  rw [if_neg h6] at h
  by_cases h7 : ct = "del".toList
  · rw [if_pos h7] at h
    exact Command.noConfusion (Option.some.inj h)
  rw [if_neg h7] at h
  by_cases h8 : ct = "eq".toList
  · rw [if_pos h8] at h
    exact Command.noConfusion (Option.some.inj h)
  rw [if_neg h8] at h
  by_cases h9 : ct = "not".toList
  · rw [if_pos h9] at h
    exact Command.noConfusion (Option.some.inj h)
  rw [if_neg h9] at h
  by_cases h10 : ct = "gt".toList
  · rw [if_pos h10] at h
    exact Command.noConfusion (Option.some.inj h)
  rw [if_neg h10] at h
  by_cases h11 : ct = "lt".toList
  · rw [if_pos h11] at h
    exact Command.noConfusion (Option.some.inj h)
  rw [if_neg h11] at h
  by_cases h12 : ct = "add".toList
  · rw [if_pos h12] at h
    exact Command.noConfusion (Option.some.inj h)
  rw [if_neg h12] at h
  by_cases h13 : ct = "sub".toList
  · rw [if_pos h13] at h
    exact Command.noConfusion (Option.some.inj h)
  rw [if_neg h13] at h
  by_cases h14 : ct = "mult".toList
  · rw [if_pos h14] at h
    exact Command.noConfusion (Option.some.inj h)
  rw [if_neg h14] at h
  by_cases h15 : ct = "div".toList
  · rw [if_pos h15] at h
    exact Command.noConfusion (Option.some.inj h)
  rw [if_neg h15] at h
  by_cases h16 : ct = "mod".toList
  · rw [if_pos h16] at h
    exact Command.noConfusion (Option.some.inj h)
  rw [if_neg h16] at h
  by_cases h17 : ct = "read".toList
  · rw [if_pos h17] at h
    exact Command.noConfusion (Option.some.inj h)
  rw [if_neg h17] at h
  by_cases h18 : ct = "print".toList
  · rw [if_pos h18] at h
    exact Command.noConfusion (Option.some.inj h)
  rw [if_neg h18] at h
  by_cases h19 : ct = "jmp".toList
  · rw [if_pos h19] at h
    exact Command.noConfusion (Option.some.inj h)
  rw [if_neg h19] at h
  by_cases h20 : ct = "jmpc".toList
  · rw [if_pos h20] at h
    exact Command.noConfusion (Option.some.inj h)
  rw [if_neg h20] at h
  exact Option.noConfusion h

/-- The label-table invariant maintained by the parser: a name maps to the
index of its last declaration, and an unmapped name has no declaration. -/
def LabelsInv (p : Program) : Prop :=
  (∀ (l : List Char) (i : Nat), labels_get p.labels l = some i →
    p.lines[i]? = some (Command.label l) ∧
      ∀ j : Nat, i < j → p.lines[j]? ≠ some (Command.label l)) ∧
  (∀ l : List Char, labels_get p.labels l = none →
    ∀ j : Nat, p.lines[j]? ≠ some (Command.label l))

theorem LabelsInv_append_other (p : Program) (c : Command)
    (hc : ∀ l, c ≠ Command.label l) (h : LabelsInv p) :
    LabelsInv { p with lines := p.lines ++ [c] } := by
  obtain ⟨hsome, hnone⟩ := h
  constructor
  · intro l i hi
    obtain ⟨h1, h2⟩ := hsome l i hi
    have hlt : i < p.lines.length := by
      rw [List.getElem?_eq_some] at h1
      exact h1.1
    refine ⟨by rw [List.getElem?_append_left hlt]; exact h1, ?_⟩
    intro j hj
    by_cases hjl : j < p.lines.length
    · rw [List.getElem?_append_left hjl]
      exact h2 j hj
    · by_cases hje : j = p.lines.length
      · subst hje
        rw [List.getElem?_concat_length]
        intro hcon
        exact hc l (Option.some.inj hcon)
      · have : (p.lines ++ [c]).length ≤ j := by
          simp only [List.length_append, List.length_cons, List.length_nil]
          omega
        rw [List.getElem?_eq_none this]
        simp
  · intro l hl j
    by_cases hjl : j < p.lines.length
    · rw [List.getElem?_append_left hjl]
      exact hnone l hl j
    · by_cases hje : j = p.lines.length
      · subst hje
        rw [List.getElem?_concat_length]
        intro hcon
        exact hc l (Option.some.inj hcon)
      · have : (p.lines ++ [c]).length ≤ j := by
          simp only [List.length_append, List.length_cons, List.length_nil]
          omega
        rw [List.getElem?_eq_none this]
        simp

theorem LabelsInv_append_label (p : Program) (lab : List Char)
    (h : LabelsInv p) :
    LabelsInv { lines := p.lines ++ [Command.label lab],
                labels := (lab, p.lines.length) :: p.labels } := by
  obtain ⟨hsome, hnone⟩ := h
  constructor
  · intro l i hi
    by_cases hll : lab = l
    · subst hll
      have hi2 : i = p.lines.length := by
        simp [labels_get] at hi
        exact hi.symm
      subst hi2
      refine ⟨List.getElem?_concat_length _ _, ?_⟩
      intro j hj
      have : (p.lines ++ [Command.label lab]).length ≤ j := by
        simp only [List.length_append, List.length_cons, List.length_nil]
        omega
      rw [List.getElem?_eq_none this]
      simp
    · simp only [labels_get, if_neg hll] at hi
      obtain ⟨h1, h2⟩ := hsome l i hi
      have hlt : i < p.lines.length := by
        rw [List.getElem?_eq_some] at h1
        exact h1.1
      refine ⟨by rw [List.getElem?_append_left hlt]; exact h1, ?_⟩
      intro j hj
      by_cases hjl : j < p.lines.length
      · rw [List.getElem?_append_left hjl]
        exact h2 j hj
      · by_cases hje : j = p.lines.length
        · subst hje
          rw [List.getElem?_concat_length]
          intro hcon
          exact hll (congrArg (fun c => match c with
            | Command.label x => x
            | _ => lab) (Option.some.inj hcon))
        · have : (p.lines ++ [Command.label lab]).length ≤ j := by
            simp only [List.length_append, List.length_cons, List.length_nil]
            omega
          rw [List.getElem?_eq_none this]
          simp
  · intro l hl j
    have hll : lab ≠ l := by
      intro hEq
      simp [labels_get, hEq] at hl
    simp only [labels_get, if_neg hll] at hl
    by_cases hjl : j < p.lines.length
    · rw [List.getElem?_append_left hjl]
      exact hnone l hl j
    · by_cases hje : j = p.lines.length
      · subst hje
        rw [List.getElem?_concat_length]
        intro hcon
        exact hll (congrArg (fun c => match c with
          | Command.label x => x
          | _ => lab) (Option.some.inj hcon))
      · have : (p.lines ++ [Command.label lab]).length ≤ j := by
          simp only [List.length_append, List.length_cons, List.length_nil]
          omega
        rw [List.getElem?_eq_none this]
        simp

theorem parse_line_LabelsInv {p p2 : Program} {raw : List Char}
    (h : parse_line p raw = some p2) (hinv : LabelsInv p) : LabelsInv p2 := by
  simp only [parse_line] at h
  split_ifs at h with h1
  · exact Option.some.inj h ▸
      LabelsInv_append_other p Command.null (by simp) hinv
  · split at h
    · exact Option.some.inj h ▸
        LabelsInv_append_other p Command.null (by simp) hinv
    · split at h
      · rename_i command hcmd
        exact Option.some.inj h ▸
          LabelsInv_append_other p command
            (parse_command_ne_label _ _ _ hcmd) hinv
      · split_ifs at h with h2
        exact Option.some.inj h ▸ LabelsInv_append_label p _ hinv

theorem parse_lines_LabelsInv :
    ∀ (text : List (List Char)) (p p2 : Program),
      parse_lines p text = some p2 → LabelsInv p → LabelsInv p2 := by
  intro text
  induction text with
  | nil =>
    intro p p2 h hinv
    exact Option.some.inj h ▸ hinv
  | cons line rest ih =>
    intro p p2 h hinv
    unfold parse_lines at h
    cases hline : parse_line p line with
    | none => rw [hline] at h; cases h
    | some p1 =>
      rw [hline] at h
      exact ih p1 p2 h (parse_line_LabelsInv hline hinv)

/-- C8: for every parsed program, the label table maps a name to the exact
line index of its `name:` declaration — where every emitted line
(including `NoOp`s from blanks and comments) counts as one address unit —
with the last declaration winning if a name repeats; and executing
`push name` pushes that index (as an `i32`), or fails with `InvalidLabel`
if the name is absent from the table. -/
theorem C8_label_resolution (text : List (List Char)) (p : Program)
    (hp : parse_program text = some p) :
    (∀ (l : List Char) (i : Nat), labels_get p.labels l = some i →
      p.lines[i]? = some (Command.label l) ∧
        ∀ j : Nat, i < j → p.lines[j]? ≠ some (Command.label l)) ∧
    (∀ l : List Char, labels_get p.labels l = none →
      ∀ j : Nat, p.lines[j]? ≠ some (Command.label l)) ∧
    (∀ (cfg : Config) (l : List Char),
      cfg.machine.terminated = false →
      p.lines[cfg.machine.program_counter]? =
        some (Command.push (PushArgument.label l)) →
      (∀ i : Nat, labels_get p.labels l = some i →
        execute_command p cfg = finish_step p
          { cfg with machine := { cfg.machine with
              program_counter := cfg.machine.program_counter + 1,
              stack := i32OfUsize i :: cfg.machine.stack } }) ∧
      (labels_get p.labels l = none →
        execute_command p cfg = .err (.invalidLabel l))) := by
  have hinv : LabelsInv p := by
    refine parse_lines_LabelsInv text { lines := [], labels := [] } p hp ?_
    constructor
    · intro l i hi
      simp [labels_get] at hi
    · intro l _ j
      simp
  refine ⟨hinv.1, hinv.2, ?_⟩
  intro cfg l hterm hfetch
  constructor
  · intro i hi
    simp [execute_command, fetch_execute, execute_fetched, hterm, hfetch, hi]
  · intro hi
    simp [execute_command, fetch_execute, execute_fetched, hterm, hfetch, hi]

/-- The parse of `x:` followed by `push x`. -/
def C8prog : Program :=
  { lines := [Command.label ['x'], Command.push (PushArgument.label ['x'])],
    labels := [(['x'], 0)] }

/-- C8 witness: in the parsed two-line program `x: / push x`, the table
maps `x` to line 0 and executing the `push x` at line 1 pushes `0`. -/
theorem C8_witness :
    execute_command C8prog
      { machine := { program_counter := 1, tape_head := 0, tape := [],
                     stack := [], terminated := false },
        input := [], output := [] } =
    .ok { machine := { program_counter := 2, tape_head := 0, tape := [],
                       stack := [0], terminated := true },
          input := [], output := [] } := by
  have h := ((C8_label_resolution [['x', ':'], ['p', 'u', 's', 'h', ' ', 'x']]
      C8prog (by decide)).2.2
      { machine := { program_counter := 1, tape_head := 0, tape := [],
                     stack := [], terminated := false },
        input := [], output := [] } ['x'] rfl (by decide)).1 0 (by decide)
  rw [h]
  decide

/-! Claim C9: parsing is idempotent on its own rendering.
First, character- and token-level facts. -/

theorem lowerChar_mem_cases (c : Char) :
    lowerChar c = c ∨ lowerChar c ∈
      ['a', 'b', 'c', 'd', 'e', 'f', 'g', 'h', 'i', 'j', 'k', 'l', 'm',
       'n', 'o', 'p', 'q', 'r', 's', 't', 'u', 'v', 'w', 'x', 'y', 'z'] := by
  unfold lowerChar
  cases hf : lowerPairs.find? (fun q => q.1 = c) with
  | none => simp
  | some q =>
    right
    have hq := List.mem_of_find?_eq_some hf
    fin_cases hq <;> simp

theorem lowerChar_fixed_of_lower (c : Char)
    (h : c ∈ ['a', 'b', 'c', 'd', 'e', 'f', 'g', 'h', 'i', 'j', 'k', 'l', 'm',
      'n', 'o', 'p', 'q', 'r', 's', 't', 'u', 'v', 'w', 'x', 'y', 'z']) :
    lowerChar c = c := by
  fin_cases h <;> decide

theorem lowerChar_idem (c : Char) : lowerChar (lowerChar c) = lowerChar c := by
  rcases lowerChar_mem_cases c with h | h
  · rw [h, h]
  · exact lowerChar_fixed_of_lower _ h

theorem mem_to_lowercase_fixed {s : List Char} {c : Char}
    (h : c ∈ to_lowercase s) : lowerChar c = c := by
  obtain ⟨d, _, rfl⟩ := List.mem_map.1 h
  exact lowerChar_idem d

theorem isWhite_lowerChar (c : Char) : isWhite (lowerChar c) = isWhite c := by
  unfold lowerChar
  cases hf : lowerPairs.find? (fun q => q.1 = c) with
  | none => rfl
  | some q =>
    have h1 : q.1 = c := by
      have := List.find?_some hf
      simpa using this
    have hq := List.mem_of_find?_eq_some hf
    subst h1
    fin_cases hq <;> decide

theorem dropWhile_eq_self_of_head {s : List Char}
    (h : ∀ c, s.head? = some c → isWhite c = false) :
    s.dropWhile isWhite = s := by
  cases s with
  | nil => rfl
  | cons c rest =>
    rw [List.dropWhile_cons_of_neg]
    simp [h c rfl]

theorem trim_eq_self {s : List Char}
    (h1 : ∀ c, s.head? = some c → isWhite c = false)
    (h2 : ∀ c, s.getLast? = some c → isWhite c = false) :
    trim s = s := by
  unfold trim
  rw [dropWhile_eq_self_of_head h1]
  rw [dropWhile_eq_self_of_head (fun c hc => h2 c (by
    rwa [← List.head?_reverse]))]
  exact List.reverse_reverse s

theorem trim_eq_self_of_all {s : List Char}
    (h : ∀ c ∈ s, isWhite c = false) : trim s = s := by
  refine trim_eq_self (fun c hc => h c ?_) (fun c hc => h c ?_)
  · exact List.mem_of_mem_head? hc
  · exact List.mem_of_mem_getLast? hc

theorem to_lowercase_eq_self {s : List Char}
    (h : ∀ c ∈ s, lowerChar c = c) : to_lowercase s = s := by
  unfold to_lowercase
  induction s with
  | nil => rfl
  | cons c rest ih =>
    rw [List.map_cons, h c (List.mem_cons_self _ _),
      ih (fun d hd => h d (List.mem_cons_of_mem _ hd))]

theorem takeWhile_eq_self_of_all {p : Char → Bool} :
    ∀ {l : List Char}, (∀ c ∈ l, p c = true) → l.takeWhile p = l := by
  intro l
  induction l with
  | nil => intro _; rfl
  | cons c rest ih =>
    intro h
    rw [List.takeWhile_cons_of_pos (h c (List.mem_cons_self _ _)),
      ih (fun d hd => h d (List.mem_cons_of_mem _ hd))]

theorem dropWhile_eq_nil_of_all {p : Char → Bool} :
    ∀ {l : List Char}, (∀ c ∈ l, p c = true) → l.dropWhile p = [] := by
  intro l
  induction l with
  | nil => intro _; rfl
  | cons c rest ih =>
    intro h
    rw [List.dropWhile_cons_of_pos (h c (List.mem_cons_self _ _))]
    exact ih (fun d hd => h d (List.mem_cons_of_mem _ hd))

theorem splitWSF_nil (fuel : Nat) : splitWSF fuel [] = [] := by
  cases fuel <;> rfl

theorem splitWSF_token {d : List Char} (hd : d ≠ [])
    (hw : ∀ c ∈ d, isWhite c = false) :
    ∀ fuel, d.length ≤ fuel → splitWSF fuel d = [d] := by
  intro fuel hfuel
  cases d with
  | nil => exact absurd rfl hd
  | cons c rest =>
    cases fuel with
    | zero => simp at hfuel
    | succ k =>
      rw [splitWSF]
      rw [if_neg (by simp [hw c (List.mem_cons_self _ _)])]
      rw [takeWhile_eq_self_of_all
        (fun x hx => by simp [hw x (List.mem_cons_of_mem _ hx)])]
      rw [dropWhile_eq_nil_of_all
        (fun x hx => by simp [hw x (List.mem_cons_of_mem _ hx)])]
      rw [splitWSF_nil]

theorem splitWSF_tokens :
    ∀ (fuel : Nat) (s t : List Char), t ∈ splitWSF fuel s →
      t ≠ [] ∧ (∀ c ∈ t, isWhite c = false) ∧ ∀ c ∈ t, c ∈ s := by
  intro fuel
  induction fuel with
  | zero =>
    intro s t h
    simp [splitWSF] at h
  | succ k ih =>
    intro s t h
    cases s with
    | nil => simp [splitWSF] at h
    | cons c rest =>
      rw [splitWSF] at h
      by_cases hw : isWhite c = true
      · rw [if_pos hw] at h
        obtain ⟨h1, h2, h3⟩ := ih rest t h
        exact ⟨h1, h2, fun x hx => List.mem_cons_of_mem _ (h3 x hx)⟩
      · rw [if_neg hw] at h
        rcases List.mem_cons.1 h with rfl | hmem
        · refine ⟨by simp, ?_, ?_⟩
          · intro x hx
            rcases List.mem_cons.1 hx with rfl | hx2
            · simpa using hw
            · have := List.mem_takeWhile_imp hx2
              simpa using this
          · intro x hx
            rcases List.mem_cons.1 hx with rfl | hx2
            · exact List.mem_cons_self _ _
            · exact List.mem_cons_of_mem _
                ((List.takeWhile_sublist _).subset hx2)
        · obtain ⟨h1, h2, h3⟩ := ih _ t hmem
          refine ⟨h1, h2, fun x hx => ?_⟩
          exact List.mem_cons_of_mem _
            ((List.dropWhile_sublist _).subset (h3 x hx))

theorem splitWS_tokens {s t : List Char} (h : t ∈ splitWS s) :
    t ≠ [] ∧ (∀ c ∈ t, isWhite c = false) ∧ ∀ c ∈ t, c ∈ s :=
  splitWSF_tokens s.length s t h

theorem splitWS_cons_head {c : Char} {rest : List Char}
    (hw : isWhite c = false) :
    splitWS (c :: rest) =
      (c :: rest.takeWhile (fun d => !isWhite d)) ::
        splitWSF rest.length (rest.dropWhile (fun d => !isWhite d)) := by
  rw [splitWS, show (c :: rest).length = rest.length + 1 from rfl, splitWSF,
    if_neg (by simp [hw])]

theorem is_comment_decl_eq (c1 : Char) (lab2 r : List Char) :
    is_comment ((c1 :: lab2) ++ [':']) = is_comment ((c1 :: lab2) ++ ':' :: r) := by
  cases lab2 <;> rfl

theorem dropWhile_ne_colon :
    ∀ (ct : List Char), ':' ∈ ct →
      ∃ t3, ct.dropWhile (fun c => c ≠ ':') = ':' :: t3 := by
  intro ct
  induction ct with
  | nil => intro h; cases h
  | cons c rest ih =>
    intro h
    by_cases hc : c = ':'
    · subst hc
      exact ⟨rest, by rw [List.dropWhile_cons_of_neg (by simp)]⟩
    · have h2 : ':' ∈ rest := by
        rcases List.mem_cons.1 h with h | h
        · exact absurd h.symm hc
        · exact h
      obtain ⟨t3, ht3⟩ := ih h2
      exact ⟨t3, by rw [List.dropWhile_cons_of_pos (by simp [hc]), ht3]⟩

theorem colon_split {ct : List Char} (h : ':' ∈ ct) :
    ∃ t3, ct = ct.takeWhile (fun c => c ≠ ':') ++ ':' :: t3 := by
  obtain ⟨t3, ht3⟩ := dropWhile_ne_colon ct h
  exact ⟨t3, by rw [← ht3, List.takeWhile_append_dropWhile]⟩

theorem colon_not_mem_takeWhile (ct : List Char) :
    ':' ∉ ct.takeWhile (fun c => c ≠ ':') := by
  intro h
  have := List.mem_takeWhile_imp h
  simp at this

theorem takeWhile_append_of_all {p : Char → Bool} :
    ∀ (l r : List Char), (∀ c ∈ l, p c = true) →
      (l ++ r).takeWhile p = l ++ r.takeWhile p := by
  intro l
  induction l with
  | nil => intro r _; rfl
  | cons c rest ih =>
    intro r h
    rw [List.cons_append, List.takeWhile_cons_of_pos (h c (List.mem_cons_self _ _)),
      ih r (fun d hd => h d (List.mem_cons_of_mem _ hd)), List.cons_append]

/-! Numeric rendering/parsing roundtrip facts for C9. -/

theorem natReprAux_zero : ∀ fuel, natReprAux fuel 0 = [] := by
  intro fuel
  cases fuel <;> rfl

theorem natReprAux_chars :
    ∀ (fuel n : Nat) (c : Char), c ∈ natReprAux fuel n →
      ∃ d, d < 10 ∧ c = Nat.digitChar d := by
  intro fuel
  induction fuel with
  | zero =>
    intro n c h
    simp [natReprAux] at h
  | succ k ih =>
    intro n c h
    cases n with
    | zero => simp [natReprAux] at h
    | succ m =>
      rw [natReprAux] at h
      rcases List.mem_append.1 h with h | h
      · exact ih _ _ h
      · simp only [List.mem_singleton] at h
        exact ⟨(m + 1) % 10, Nat.mod_lt _ (by omega), h⟩

theorem digitChar_facts (d : Nat) (hd : d < 10) :
    (Nat.digitChar d).isDigit = true ∧ (Nat.digitChar d).toNat - 48 = d ∧
    isWhite (Nat.digitChar d) = false ∧
    lowerChar (Nat.digitChar d) = Nat.digitChar d ∧
    Nat.digitChar d ≠ '+' ∧ Nat.digitChar d ≠ '-' ∧
    Nat.digitChar d ≠ ':' := by
  interval_cases d <;> refine ⟨by decide, by decide, by decide, by decide,
    by decide, by decide, by decide⟩

theorem natReprAux_eq_digits :
    ∀ (fuel n : Nat), 0 < n → n ≤ fuel →
      natReprAux fuel n = ((Nat.digits 10 n).map Nat.digitChar).reverse := by
  intro fuel
  induction fuel with
  | zero => intro n h1 h2; omega
  | succ k ih =>
    intro n h1 h2
    cases n with
    | zero => omega
    | succ m =>
      rw [natReprAux, Nat.digits_def' (by norm_num : (1 : Nat) < 10) h1,
        List.map_cons, List.reverse_cons]
      by_cases hm : (m + 1) / 10 = 0
      · rw [hm, natReprAux_zero]
        simp
      · have hlt : (m + 1) / 10 < m + 1 :=
          Nat.div_lt_self (by omega) (by norm_num)
        rw [ih ((m + 1) / 10) (Nat.pos_of_ne_zero hm) (by omega)]

theorem parseDigitsAux_append :
    ∀ (xs ys : List Char) (acc : Nat),
      parseDigitsAux (xs ++ ys) acc =
        match parseDigitsAux xs acc with
        | some a => parseDigitsAux ys a
        | none => none := by
  intro xs
  induction xs with
  | nil => intro ys acc; rfl
  | cons c rest ih =>
    intro ys acc
    by_cases hc : c.isDigit = true
    · simp only [List.cons_append, parseDigitsAux, hc, if_true]
      exact ih ys _
    · simp [parseDigitsAux, hc]

theorem parseDigitsAux_digits :
    ∀ (ds : List Nat) (acc : Nat), (∀ d ∈ ds, d < 10) →
      parseDigitsAux ((ds.map Nat.digitChar).reverse) acc =
        some (acc * 10 ^ ds.length + Nat.ofDigits 10 ds) := by
  intro ds
  induction ds with
  | nil =>
    intro acc _
    simp [parseDigitsAux, Nat.ofDigits_nil]
  | cons d rest ih =>
    intro acc h
    rw [List.map_cons, List.reverse_cons, parseDigitsAux_append,
      ih acc (fun x hx => h x (List.mem_cons_of_mem _ hx))]
    obtain ⟨hdig, hval, _⟩ := digitChar_facts d (h d (List.mem_cons_self _ _))
    simp only [parseDigitsAux, hdig, if_true, hval]
    rw [Nat.ofDigits_cons]
    congr 1
    simp only [List.length_cons]
    ring

theorem parseDigitsAux_natRepr (n : Nat) :
    parseDigitsAux (natRepr n) 0 = some n := by
  by_cases h : n = 0
  · subst h
    decide
  · rw [natRepr, if_neg h,
      natReprAux_eq_digits n n (Nat.pos_of_ne_zero h) le_rfl,
      parseDigitsAux_digits _ 0
        (fun d hd => Nat.digits_lt_base (by norm_num) hd)]
    simp [Nat.ofDigits_digits]

theorem natRepr_chars (n : Nat) :
    ∀ c ∈ natRepr n, ∃ d, d < 10 ∧ c = Nat.digitChar d := by
  intro c hc
  by_cases h : n = 0
  · subst h
    simp [natRepr] at hc
    exact ⟨0, by omega, by rw [hc]; decide⟩
  · rw [natRepr, if_neg h] at hc
    exact natReprAux_chars n n c hc

theorem natRepr_ne_nil (n : Nat) : natRepr n ≠ [] := by
  by_cases h : n = 0
  · subst h
    simp [natRepr]
  · rw [natRepr, if_neg h]
    cases n with
    | zero => exact absurd rfl h
    | succ m =>
      rw [natReprAux]
      simp

theorem intRepr_chars (v : Int) :
    ∀ c ∈ intRepr v, isWhite c = false ∧ lowerChar c = c := by
  intro c hc
  unfold intRepr at hc
  split_ifs at hc with hv
  · rcases List.mem_cons.1 hc with rfl | hc2
    · exact ⟨by decide, by decide⟩
    · obtain ⟨d, hd, rfl⟩ := natRepr_chars _ c hc2
      obtain ⟨_, _, h3, h4, _⟩ := digitChar_facts d hd
      exact ⟨h3, h4⟩
  · obtain ⟨d, hd, rfl⟩ := natRepr_chars _ c hc
    obtain ⟨_, _, h3, h4, _⟩ := digitChar_facts d hd
    exact ⟨h3, h4⟩

theorem intRepr_ne_nil (v : Int) : intRepr v ≠ [] := by
  unfold intRepr
  split_ifs with hv
  · simp
  · exact natRepr_ne_nil _

/-- Unfolding equation of `parse_i32` on a nonempty list. -/
theorem parse_i32_cons (c : Char) (cs : List Char) :
    parse_i32 (c :: cs) = (if c = '+' then
      match cs, parseDigitsAux cs 0 with
      | _ :: _, some n => if n ≤ 2 ^ 31 - 1 then some (n : Int) else none
      | _, _ => (none : Option Int)
    else if c = '-' then
      match cs, parseDigitsAux cs 0 with
      | _ :: _, some n => if n ≤ 2 ^ 31 then some (-(n : Int)) else none
      | _, _ => none
    else
      match parseDigitsAux (c :: cs) 0 with
      | some n => if n ≤ 2 ^ 31 - 1 then some (n : Int) else none
      | none => none) := rfl

theorem parse_i32_intRepr (v : Int) (h1 : -(2 ^ 31) ≤ v) (h2 : v < 2 ^ 31) :
    parse_i32 (intRepr v) = some v := by
  by_cases hv : v < 0
  · rw [intRepr, if_pos hv]
    have hpd := parseDigitsAux_natRepr (-v).toNat
    cases hrep : natRepr (-v).toNat with
    | nil => exact absurd hrep (natRepr_ne_nil _)
    | cons c cs =>
      rw [hrep] at hpd
      rw [parse_i32_cons, if_neg (by decide), if_pos rfl, hpd]
      have hle : (-v).toNat ≤ 2 ^ 31 := by omega
      show (if (-v).toNat ≤ 2 ^ 31 then some (-(((-v).toNat : Nat) : Int)) else none) = some v
      rw [if_pos hle]
      congr 1
      omega
  · rw [intRepr, if_neg hv]
    have hpd := parseDigitsAux_natRepr v.toNat
    cases hrep : natRepr v.toNat with
    | nil => exact absurd hrep (natRepr_ne_nil _)
    | cons c cs =>
      obtain ⟨d, hd, rfl⟩ := natRepr_chars _ c (hrep ▸ List.mem_cons_self _ _)
      obtain ⟨_, _, _, _, hplus, hminus, _⟩ := digitChar_facts d hd
      rw [hrep] at hpd
      rw [parse_i32_cons, if_neg hplus, if_neg hminus, hpd]
      have hle : v.toNat ≤ 2 ^ 31 - 1 := by omega
      show (if v.toNat ≤ 2 ^ 31 - 1 then some ((v.toNat : Nat) : Int) else none) = some v
      rw [if_pos hle]
      congr 1
      omega

/-! The invariant satisfied by every command the parser emits, strong
enough to make the command reparse from its own rendering. -/

theorem parse_i32_range {s : List Char} {v : Int} (h : parse_i32 s = some v) :
    -(2 ^ 31) ≤ v ∧ v < 2 ^ 31 := by
  cases s with
  | nil => exact absurd h (by simp [parse_i32])
  | cons c cs =>
    rw [parse_i32_cons] at h
    split_ifs at h with h1 h2
    · split at h
      · rename_i n heq
        split_ifs at h with hle
        · obtain rfl := Option.some.inj h
          omega
      · exact Option.noConfusion h
    · split at h
      · rename_i n heq
        split_ifs at h with hle
        · obtain rfl := Option.some.inj h
          omega
      · exact Option.noConfusion h
    · split at h
      · rename_i n heq
        split_ifs at h with hle
        · obtain rfl := Option.some.inj h
          omega
      · exact Option.noConfusion h

/-- The shape of every command the parser can emit: constants are in the
`i32` range accepted by `parse_i32`, label references are nonempty
whitespace-free lowercase tokens that do not parse as integers, and label
declarations in addition never start like a comment. -/
def LineInv : Command → Prop
  | Command.push (PushArgument.const c) => -(2 ^ 31) ≤ c ∧ c < 2 ^ 31
  | Command.push (PushArgument.label l) =>
      l ≠ [] ∧ (∀ ch ∈ l, isWhite ch = false ∧ lowerChar ch = ch) ∧
        parse_i32 l = none
  | Command.label l =>
      (∀ ch ∈ l, isWhite ch = false ∧ lowerChar ch = ch ∧ ch ≠ ':') ∧
        l.head? ≠ some '#' ∧ l.head? ≠ some ';' ∧ l.take 2 ≠ ['/', '/']
  | _ => True

theorem parse_command_push_eq (a : List Char) :
    parse_command ("push".toList) (some a) =
      some (Command.push (match parse_i32 a with
        | some c => PushArgument.const c
        | none => PushArgument.label a)) := rfl

theorem splitWS_single {d : List Char} (hd : d ≠ [])
    (hw : ∀ c ∈ d, isWhite c = false) : splitWS d = [d] :=
  splitWSF_token hd hw d.length le_rfl

theorem is_comment_eq_false {s : List Char}
    (h1 : s.head? ≠ some '#') (h2 : s.take 2 ≠ ['/', '/'])
    (h3 : s.head? ≠ some ';') : is_comment s = false := by
  unfold is_comment
  simp [h1, h2, h3]

theorem dropWhile_head_not (p : Char → Bool) :
    ∀ (s : List Char) (c : Char), (s.dropWhile p).head? = some c →
      p c = false := by
  intro s
  induction s with
  | nil => intro c h; simp at h
  | cons a rest ih =>
    intro c h
    by_cases ha : p a = true
    · rw [List.dropWhile_cons_of_pos ha] at h
      exact ih c h
    · rw [List.dropWhile_cons_of_neg ha] at h
      obtain rfl := Option.some.inj h
      simpa using ha

theorem getLast?_dropWhile_ne (p : Char → Bool) :
    ∀ (s : List Char), s.dropWhile p ≠ [] →
      (s.dropWhile p).getLast? = s.getLast? := by
  intro s
  induction s with
  | nil => intro h; exact absurd rfl h
  | cons a rest ih =>
    intro h
    by_cases ha : p a = true
    · rw [List.dropWhile_cons_of_pos ha] at h ⊢
      rw [ih h]
      cases rest with
      | nil => exact absurd (by simp [List.dropWhile]) h
      | cons b l => rw [List.getLast?_cons_cons]
    · rw [List.dropWhile_cons_of_neg ha]

theorem trim_head_not_white {s : List Char} {c : Char}
    (h : (trim s).head? = some c) : isWhite c = false := by
  unfold trim at h
  rw [List.head?_reverse] at h
  have hne : (s.dropWhile isWhite).reverse.dropWhile isWhite ≠ [] := by
    intro he
    rw [he] at h
    simp at h
  rw [getLast?_dropWhile_ne isWhite _ hne, List.getLast?_reverse] at h
  exact dropWhile_head_not isWhite s c h

theorem line_head_not_white {raw : List Char} {c : Char}
    (h : (to_lowercase (trim raw)).head? = some c) : isWhite c = false := by
  unfold to_lowercase at h
  rw [List.head?_map] at h
  cases hd : (trim raw).head? with
  | none => rw [hd] at h; exact Option.noConfusion h
  | some d =>
    rw [hd] at h
    obtain rfl := Option.some.inj h
    rw [isWhite_lowerChar]
    exact trim_head_not_white hd

theorem takeWhile_head? {p : Char → Bool} {l : List Char} {c : Char}
    (h : (l.takeWhile p).head? = some c) : l.head? = some c := by
  cases l with
  | nil => simp at h
  | cons a rest =>
    by_cases ha : p a = true
    · rw [List.takeWhile_cons_of_pos ha] at h
      exact h
    · rw [List.takeWhile_cons_of_neg ha] at h
      exact Option.noConfusion h

theorem parse_command_colon (l : List Char) (a : Option (List Char)) :
    parse_command (l ++ [':']) a = none := by
  have key : ∀ s : List Char, s.getLast? ≠ some ':' → l ++ [':'] ≠ s := by
    intro s hs he
    exact hs (he ▸ List.getLast?_concat _)
  unfold parse_command
  rw [if_neg (key _ (by decide)), if_neg (key _ (by decide)),
    if_neg (key _ (by decide)), if_neg (key _ (by decide)),
    if_neg (key _ (by decide)), if_neg (key _ (by decide)),
    if_neg (key _ (by decide)), if_neg (key _ (by decide)),
    if_neg (key _ (by decide)), if_neg (key _ (by decide)),
    if_neg (key _ (by decide)), if_neg (key _ (by decide)),
    if_neg (key _ (by decide)), if_neg (key _ (by decide)),
    if_neg (key _ (by decide)), if_neg (key _ (by decide)),
    if_neg (key _ (by decide)), if_neg (key _ (by decide)),
    if_neg (key _ (by decide)), if_neg (key _ (by decide))]

set_option maxHeartbeats 1000000 in
theorem parse_command_LineInv (ct : List Char) (arg : Option (List Char))
    (c : Command)
    (harg : ∀ x, arg = some x → x ≠ [] ∧ ∀ ch ∈ x, isWhite ch = false ∧ lowerChar ch = ch)
    (h : parse_command ct arg = some c) : LineInv c := by
  unfold parse_command at h
  by_cases h1 : ct = "left".toList
  · rw [if_pos h1] at h
    obtain rfl := Option.some.inj h
    trivial
  rw [if_neg h1] at h
  by_cases h2 : ct = "right".toList
  · rw [if_pos h2] at h
    obtain rfl := Option.some.inj h
    trivial
  rw [if_neg h2] at h
  by_cases h3 : ct = "pusht".toList
  · rw [if_pos h3] at h
    obtain rfl := Option.some.inj h
    trivial
  rw [if_neg h3] at h
  by_cases h4 : ct = "push".toList
  · rw [if_pos h4] at h
    cases arg with
    | none => exact Option.noConfusion h
    | some a =>
      obtain rfl := Option.some.inj h
      cases hp : parse_i32 a with
      | some v =>
        simp only [hp]
        exact parse_i32_range hp
      | none =>
        simp only [hp]
        exact ⟨(harg a rfl).1, (harg a rfl).2, hp⟩
  rw [if_neg h4] at h
  by_cases h5 : ct = "pop".toList
  · rw [if_pos h5] at h
    obtain rfl := Option.some.inj h
    trivial
  rw [if_neg h5] at h
  by_cases h6 : ct = "dup".toList
  · rw [if_pos h6] at h
    obtain rfl := Option.some.inj h
    trivial
  rw [if_neg h6] at h
  by_cases h7 : ct = "del".toList
  · rw [if_pos h7] at h
    obtain rfl := Option.some.inj h
    trivial
  rw [if_neg h7] at h
  by_cases h8 : ct = "eq".toList
  · rw [if_pos h8] at h
    obtain rfl := Option.some.inj h
    trivial
  rw [if_neg h8] at h
  by_cases h9 : ct = "not".toList
  · rw [if_pos h9] at h
    obtain rfl := Option.some.inj h
    trivial
  rw [if_neg h9] at h
  by_cases h10 : ct = "gt".toList
  · rw [if_pos h10] at h
    obtain rfl := Option.some.inj h
    trivial
  rw [if_neg h10] at h
  by_cases h11 : ct = "lt".toList
  · rw [if_pos h11] at h
    obtain rfl := Option.some.inj h
    trivial
  rw [if_neg h11] at h
  by_cases h12 : ct = "add".toList
  · rw [if_pos h12] at h
    obtain rfl := Option.some.inj h
    trivial
  rw [if_neg h12] at h
  by_cases h13 : ct = "sub".toList
  · rw [if_pos h13] at h
    obtain rfl := Option.some.inj h
    trivial
  rw [if_neg h13] at h
  by_cases h14 : ct = "mult".toList
  · rw [if_pos h14] at h
    obtain rfl := Option.some.inj h
    trivial
  rw [if_neg h14] at h
  by_cases h15 : ct = "div".toList
  · rw [if_pos h15] at h
    obtain rfl := Option.some.inj h
    trivial
  rw [if_neg h15] at h
  by_cases h16 : ct = "mod".toList
  · rw [if_pos h16] at h
    obtain rfl := Option.some.inj h
    trivial
  rw [if_neg h16] at h
  by_cases h17 : ct = "read".toList
  · rw [if_pos h17] at h
    obtain rfl := Option.some.inj h
    trivial
  rw [if_neg h17] at h
  by_cases h18 : ct = "print".toList
  · rw [if_pos h18] at h
    obtain rfl := Option.some.inj h
    trivial
  rw [if_neg h18] at h
  by_cases h19 : ct = "jmp".toList
  · rw [if_pos h19] at h
    obtain rfl := Option.some.inj h
    trivial
  rw [if_neg h19] at h
  by_cases h20 : ct = "jmpc".toList
  · rw [if_pos h20] at h
    obtain rfl := Option.some.inj h
    trivial
  rw [if_neg h20] at h
  exact Option.noConfusion h

theorem label_head_ne {c0 x : Char} {tw l : List Char}
    (hl : l = (c0 :: tw).takeWhile (fun c => c ≠ ':'))
    (hx : c0 ≠ x) : l.head? ≠ some x := by
  intro hh
  rw [hl] at hh
  have := takeWhile_head? hh
  exact hx (Option.some.inj this)

theorem label_take_two {c0 : Char} {rest0 l : List Char}
    (hl : l = (c0 :: rest0.takeWhile (fun d => !isWhite d)).takeWhile
      (fun c => c ≠ ':'))
    (h2 : (c0 :: rest0).take 2 ≠ ['/', '/']) : l.take 2 ≠ ['/', '/'] := by
  intro ht
  rw [List.takeWhile_cons] at hl
  by_cases hc0 : (decide (c0 ≠ ':')) = true
  · rw [if_pos hc0] at hl
    subst hl
    rw [List.take_cons (by norm_num)] at ht
    have hc0s : c0 = '/' := (List.cons.inj ht).1
    have htail := (List.cons.inj ht).2
    have hhead : ((rest0.takeWhile (fun d => !isWhite d)).takeWhile
        (fun c => c ≠ ':')).head? = some '/' := by
      cases hX : (rest0.takeWhile (fun d => !isWhite d)).takeWhile
          (fun c => c ≠ ':') with
      | nil => rw [hX] at htail; exact absurd htail (by simp)
      | cons a r =>
        rw [hX] at htail
        rw [List.take_cons (by norm_num)] at htail
        obtain rfl := (List.cons.inj htail).1
        rfl
    have h1 := takeWhile_head? (takeWhile_head? hhead)
    cases rest0 with
    | nil => exact Option.noConfusion h1
    | cons b r2 =>
      obtain rfl := Option.some.inj h1
      exact h2 (by rw [hc0s]; rfl)
  · rw [if_neg hc0] at hl
    subst hl
    exact absurd ht (by simp)

theorem parse_line_inv {p p2 : Program} {raw : List Char}
    (h : parse_line p raw = some p2) :
    ∃ cmd, p2.lines = p.lines ++ [cmd] ∧ LineInv cmd := by
  simp only [parse_line] at h
  split_ifs at h with h1
  · exact ⟨Command.null, by rw [← Option.some.inj h], trivial⟩
  · cases hsp : splitWS (to_lowercase (trim raw)) with
    | nil =>
      simp only [hsp] at h
      exact ⟨Command.null, by rw [← Option.some.inj h], trivial⟩
    | cons ct args =>
      simp only [hsp] at h
      cases hpc : parse_command ct args.head? with
      | some cmd =>
        simp only [hpc] at h
        refine ⟨cmd, by rw [← Option.some.inj h], ?_⟩
        refine parse_command_LineInv ct args.head? cmd ?_ hpc
        intro x hx
        have hmem : x ∈ splitWS (to_lowercase (trim raw)) := by
          rw [hsp]
          exact List.mem_cons_of_mem _ (List.mem_of_mem_head? (Option.mem_def.2 hx))
        obtain ⟨t1, t2, t3⟩ := splitWS_tokens hmem
        exact ⟨t1, fun ch hch => ⟨t2 ch hch, mem_to_lowercase_fixed (t3 ch hch)⟩⟩
      | none =>
        simp only [hpc] at h
        split_ifs at h with hcol
        · have hct : ct ∈ splitWS (to_lowercase (trim raw)) := by
            rw [hsp]
            exact List.mem_cons_self _ _
          obtain ⟨t1, t2, t3⟩ := splitWS_tokens hct
          simp only [Bool.or_eq_true, not_or, Bool.not_eq_true] at h1
          cases hl : to_lowercase (trim raw) with
          | nil =>
            rw [hl] at h1
            simp at h1
          | cons c0 rest0 =>
            rw [hl] at hsp h1
            have hc0w : isWhite c0 = false :=
              line_head_not_white (by rw [hl]; rfl)
            rw [splitWS_cons_head hc0w] at hsp
            have hctq : ct = c0 :: rest0.takeWhile (fun d => !isWhite d) :=
              ((List.cons.inj hsp).1).symm
            have hcom := h1.1
            simp only [is_comment, Bool.or_eq_false_iff,
              decide_eq_false_iff_not] at hcom
            obtain ⟨⟨hhash, hslash⟩, hsemi⟩ := hcom
            refine ⟨Command.label (ct.takeWhile (fun c => c ≠ ':')),
              by rw [← Option.some.inj h], ?_, ?_, ?_, ?_⟩
            · intro ch hch
              have hchct : ch ∈ ct := (List.takeWhile_sublist _).subset hch
              refine ⟨t2 ch hchct, mem_to_lowercase_fixed (t3 ch hchct), ?_⟩
              have := List.mem_takeWhile_imp hch
              simpa using this
            · exact label_head_ne (by rw [hctq])
                (by intro he; exact hhash (by rw [he]; rfl))
            · exact label_head_ne (by rw [hctq])
                (by intro he; exact hsemi (by rw [he]; rfl))
            · exact label_take_two (by rw [hctq]) hslash

theorem parse_lines_inv :
    ∀ (text : List (List Char)) (p p2 : Program),
      parse_lines p text = some p2 → (∀ c ∈ p.lines, LineInv c) →
      ∀ c ∈ p2.lines, LineInv c := by
  intro text
  induction text with
  | nil =>
    intro p p2 h hp
    exact Option.some.inj h ▸ hp
  | cons line rest ih =>
    intro p p2 h hp
    unfold parse_lines at h
    cases hline : parse_line p line with
    | none => rw [hline] at h; cases h
    | some p1 =>
      rw [hline] at h
      refine ih p1 p2 h ?_
      obtain ⟨cmd, hcl, hinv⟩ := parse_line_inv hline
      intro c hc
      rw [hcl] at hc
      rcases List.mem_append.1 hc with hc | hc
      · exact hp c hc
      · rw [List.mem_singleton.1 hc]
        exact hinv

theorem parse_command_push_list (a : List Char) :
    parse_command ['p', 'u', 's', 'h'] (some a) =
      some (Command.push (match parse_i32 a with
        | some c => PushArgument.const c
        | none => PushArgument.label a)) := rfl

theorem splitWS_push (l : List Char) (hne : l ≠ [])
    (hw : ∀ c ∈ l, isWhite c = false) :
    splitWS ('p' :: 'u' :: 's' :: 'h' :: ' ' :: l) =
      [['p', 'u', 's', 'h'], l] := by
  have hlen : ('p' :: 'u' :: 's' :: 'h' :: ' ' :: l).length = (l.length + 4) + 1 := by
    simp
  rw [splitWS, hlen, splitWSF, if_neg (by decide)]
  have e1 : ('u' :: 's' :: 'h' :: ' ' :: l).takeWhile (fun d => !isWhite d) =
      ['u', 's', 'h'] := rfl
  have e2 : ('u' :: 's' :: 'h' :: ' ' :: l).dropWhile (fun d => !isWhite d) =
      ' ' :: l := rfl
  rw [e1, e2]
  have hlen2 : l.length + 4 = (l.length + 3) + 1 := by omega
  rw [hlen2, splitWSF, if_pos (by decide)]
  rw [splitWSF_token hne hw (l.length + 3) (by omega)]

theorem parse_line_push (p : Program) (l : List Char) (hne : l ≠ [])
    (hch : ∀ ch ∈ l, isWhite ch = false ∧ lowerChar ch = ch) :
    parse_line p ("push ".toList ++ l) =
      some { p with lines := p.lines ++
        [Command.push (match parse_i32 l with
          | some c => PushArgument.const c
          | none => PushArgument.label l)] } := by
  have hraw : "push ".toList ++ l = 'p' :: 'u' :: 's' :: 'h' :: ' ' :: l := rfl
  rw [hraw]
  simp only [parse_line]
  have htr : trim ('p' :: 'u' :: 's' :: 'h' :: ' ' :: l) =
      'p' :: 'u' :: 's' :: 'h' :: ' ' :: l := by
    refine trim_eq_self ?_ ?_
    · intro c hc
      obtain rfl := Option.some.inj hc
      decide
    · intro c hc
      have hc2 : (['p', 'u', 's', 'h', ' '] ++ l).getLast? = some c := hc
      rw [List.getLast?_append_of_ne_nil _ hne] at hc2
      exact (hch c (List.mem_of_mem_getLast? hc2)).1
  have hlow : to_lowercase ('p' :: 'u' :: 's' :: 'h' :: ' ' :: l) =
      'p' :: 'u' :: 's' :: 'h' :: ' ' :: l := by
    refine to_lowercase_eq_self ?_
    intro c hc
    simp only [List.mem_cons] at hc
    rcases hc with rfl | rfl | rfl | rfl | rfl | hc
    · decide
    · decide
    · decide
    · decide
    · decide
    · exact (hch c hc).2
  rw [htr, hlow]
  have hcom : (is_comment ('p' :: 'u' :: 's' :: 'h' :: ' ' :: l) ||
      ('p' :: 'u' :: 's' :: 'h' :: ' ' :: l).isEmpty) = false := rfl
  rw [if_neg (by rw [hcom]; simp)]
  simp only [splitWS_push l hne (fun c hc => (hch c hc).1), List.head?_cons,
    parse_command_push_list]

theorem parse_line_label (p : Program) (l : List Char)
    (hch : ∀ ch ∈ l, isWhite ch = false ∧ lowerChar ch = ch ∧ ch ≠ ':')
    (hh1 : l.head? ≠ some '#') (hh2 : l.head? ≠ some ';')
    (ht2 : l.take 2 ≠ ['/', '/']) :
    parse_line p (l ++ [':']) =
      some { lines := p.lines ++ [Command.label l],
             labels := (l, p.lines.length) :: p.labels } := by
  simp only [parse_line]
  have hall : ∀ c ∈ l ++ [':'], isWhite c = false := by
    intro c hc
    rcases List.mem_append.1 hc with hc | hc
    · exact (hch c hc).1
    · rw [List.mem_singleton.1 hc]
      decide
  have htr : trim (l ++ [':']) = l ++ [':'] := trim_eq_self_of_all hall
  have hlow : to_lowercase (l ++ [':']) = l ++ [':'] := by
    refine to_lowercase_eq_self ?_
    intro c hc
    rcases List.mem_append.1 hc with hc | hc
    · exact (hch c hc).2.1
    · rw [List.mem_singleton.1 hc]
      decide
  rw [htr, hlow]
  have hcomf : is_comment (l ++ [':']) = false := by
    refine is_comment_eq_false ?_ ?_ ?_
    · cases l with
      | nil => decide
      | cons c1 l2 =>
        intro hx
        refine hh1 ?_
        rw [List.cons_append] at hx
        simpa using hx
    · cases l with
      | nil => decide
      | cons c1 l2 =>
        cases l2 with
        | nil => simp
        | cons c2 l3 =>
          intro hx
          refine ht2 ?_
          rw [List.cons_append, List.cons_append] at hx
          simpa using hx
    · cases l with
      | nil => decide
      | cons c1 l2 =>
        intro hx
        refine hh2 ?_
        rw [List.cons_append] at hx
        simpa using hx
  rw [if_neg (by simp [hcomf])]
  simp only [splitWS_single (by simp) hall, List.head?_nil, parse_command_colon]
  rw [if_pos (List.getLast?_concat _)]
  rw [takeWhile_append_of_all l [':'] (fun c hc => by simp [(hch c hc).2.2])]
  have e : List.takeWhile (fun c => decide (c ≠ ':')) [':'] = ([] : List Char) := by
    decide
  rw [e, List.append_nil]

theorem reparse_line (cmd : Command) (hinv : LineInv cmd) (p : Program) :
    ∃ p2, parse_line p (Command.to_string cmd) = some p2 ∧
      p2.lines = p.lines ++ [cmd] := by
  cases cmd with
  | push arg =>
    cases arg with
    | const c =>
      obtain ⟨hb1, hb2⟩ := hinv
      have hps := parse_line_push p (intRepr c) (intRepr_ne_nil c)
        (intRepr_chars c)
      simp only [parse_i32_intRepr c hb1 hb2] at hps
      simp only [Command.to_string]
      exact ⟨_, hps, rfl⟩
    | label l =>
      obtain ⟨hne, hch, hp32⟩ := hinv
      have hps := parse_line_push p l hne hch
      simp only [hp32] at hps
      simp only [Command.to_string]
      exact ⟨_, hps, rfl⟩
  | label l =>
    obtain ⟨hch, hh1, hh2, ht2⟩ := hinv
    have hps := parse_line_label p l hch hh1 hh2 ht2
    simp only [Command.to_string]
    exact ⟨_, hps, rfl⟩
  | left => exact ⟨_, rfl, rfl⟩
  | right => exact ⟨_, rfl, rfl⟩
  | pushT => exact ⟨_, rfl, rfl⟩
  | pop => exact ⟨_, rfl, rfl⟩
  | dup => exact ⟨_, rfl, rfl⟩
  | del => exact ⟨_, rfl, rfl⟩
  | eq => exact ⟨_, rfl, rfl⟩
  | not => exact ⟨_, rfl, rfl⟩
  | gt => exact ⟨_, rfl, rfl⟩
  | lt => exact ⟨_, rfl, rfl⟩
  | add => exact ⟨_, rfl, rfl⟩
  | sub => exact ⟨_, rfl, rfl⟩
  | mult => exact ⟨_, rfl, rfl⟩
  | div => exact ⟨_, rfl, rfl⟩
  | mod => exact ⟨_, rfl, rfl⟩
  | read => exact ⟨_, rfl, rfl⟩
  | print => exact ⟨_, rfl, rfl⟩
  | jmp => exact ⟨_, rfl, rfl⟩
  | jmpC => exact ⟨_, rfl, rfl⟩
  | null => exact ⟨_, rfl, rfl⟩

theorem reparse_lines :
    ∀ (cmds : List Command), (∀ c ∈ cmds, LineInv c) → ∀ (p : Program),
      ∃ p2, parse_lines p (cmds.map Command.to_string) = some p2 ∧
        p2.lines = p.lines ++ cmds := by
  intro cmds
  induction cmds with
  | nil =>
    intro _ p
    exact ⟨p, rfl, by simp⟩
  | cons c rest ih =>
    intro hinv p
    obtain ⟨p1, hp1, hl1⟩ := reparse_line c (hinv c (List.mem_cons_self _ _)) p
    obtain ⟨p2, hp2, hl2⟩ :=
      ih (fun d hd => hinv d (List.mem_cons_of_mem _ hd)) p1
    refine ⟨p2, ?_, ?_⟩
    · rw [List.map_cons]
      unfold parse_lines
      simp only [hp1]
      exact hp2
    · rw [hl2, hl1]
      simp

/-- C9: parsing is idempotent on its own textual rendering — for every
program text that parses successfully, rendering the parse (each
instruction mapped to its canonical lowercase mnemonic line) parses
again, and the second parse renders to exactly the same lines:
`render(parse(render(parse(text)))) = render(parse(text))`. -/
theorem C9_render_idempotent (text : List (List Char)) (p : Program)
    (h : parse_program text = some p) :
    ∃ p2, parse_program (render_program p) = some p2 ∧
      render_program p2 = render_program p := by
  have hinv : ∀ c ∈ p.lines, LineInv c := by
    refine parse_lines_inv text { lines := [], labels := [] } p h ?_
    intro c hc
    simp at hc
  obtain ⟨p2, hp2, hl2⟩ :=
    reparse_lines p.lines hinv { lines := [], labels := [] }
  refine ⟨p2, hp2, ?_⟩
  unfold render_program
  rw [hl2]
  simp

/-- The parse of `push 7 / x: / push x`, exercising a constant push, a
label declaration and a label reference. -/
def C9prog : Program :=
  { lines := [Command.push (PushArgument.const 7), Command.label ['x'],
      Command.push (PushArgument.label ['x'])],
    labels := [(['x'], 1)] }

/-- C9 witness: the three-line program `push 7 / x: / push x` parses,
and rendering its parse reparses to a program with the same rendering. -/
theorem C9_witness :
    parse_program [['p', 'u', 's', 'h', ' ', '7'], ['x', ':'],
        ['p', 'u', 's', 'h', ' ', 'x']] = some C9prog ∧
    ∃ p2, parse_program (render_program C9prog) = some p2 ∧
      render_program p2 = render_program C9prog :=
  ⟨by decide, C9_render_idempotent [['p', 'u', 's', 'h', ' ', '7'],
    ['x', ':'], ['p', 'u', 's', 'h', ' ', 'x']] C9prog (by decide)⟩
